import Mathlib

set_option maxRecDepth 40000

/-!
Verification of the onesixteen assembler core (`src/osa.c`): the character
classifiers, the lexeme-buffer stack operations, the token recognizers and
evaluators, the tokenizer finite-state machine of `get_next_token`, and the
tree builder `get_ast`.

Characters are modelled as `Int`, matching the C `int` values delivered by
`fgetc`: an ordinary byte is `0..255` and end-of-input is `EOF = -1`.
A C string (NUL-terminated `char` array) is modelled as the `List Int` of its
characters before the terminating NUL.
-/

namespace Osa

/-! ## Character classifiers (osa.c, "ATOM RECOGNIZERS" / "MISC RECOGNIZERS" / "HELPERS") -/

/-- `tolowercase`: convert an uppercase letter to lowercase (osa.c). -/
def tolowercase (c : Int) : Int :=
  if 65 ≤ c ∧ c ≤ 90 then c + 32 else c

/-- `touppercase` (osa.c). -/
def touppercase (c : Int) : Int :=
  if 97 ≤ c ∧ c ≤ 122 then c - 32 else c

/-- `is_bindigit`: `'0'` or `'1'`. -/
def is_bindigit (c : Int) : Bool := c = 48 || c = 49

/-- `is_digit`: `'0'..'9'`. -/
def is_digit (c : Int) : Bool := 48 ≤ c && c ≤ 57

/-- `is_octdigit`: a digit other than `'8'`/`'9'`. -/
def is_octdigit (c : Int) : Bool := is_digit c && (c ≠ 56 && c ≠ 57)

/-- `is_decdigit`. -/
def is_decdigit (c : Int) : Bool := is_digit c

/-- `is_hexdigit`: a digit or `a..f` (case-insensitive). -/
def is_hexdigit (c : Int) : Bool :=
  is_digit c || (97 ≤ tolowercase c && tolowercase c ≤ 102)

/-- `is_letter`: `a..z` case-insensitive. -/
def is_letter (c : Int) : Bool :=
  97 ≤ tolowercase c && tolowercase c ≤ 122

/-- `is_visible_ascii_character`: printable range 32..126. -/
def is_visible_ascii_character (c : Int) : Bool := 32 ≤ c && c ≤ 126

/-- `is_eos`: the string terminator `'\0'`. -/
def is_eos (c : Int) : Bool := c = 0

/-- `is_eol`: `'\n'`. -/
def is_eol (c : Int) : Bool := c = 10

/-- `is_eof`: the `EOF` value returned by `fgetc`. -/
def is_eof (c : Int) : Bool := c = -1

/-- `is_binsym`: the binary-numeral suffix `b`/`B`. -/
def is_binsym (c : Int) : Bool := tolowercase c = 98

/-- `is_octsym`: `o`/`O`. -/
def is_octsym (c : Int) : Bool := tolowercase c = 111

/-- `is_decsym`: `d`/`D`. -/
def is_decsym (c : Int) : Bool := tolowercase c = 100

/-- `is_hexsym`: `h`/`H`. -/
def is_hexsym (c : Int) : Bool := tolowercase c = 104

/-- `is_comment_initor`: `';'`. -/
def is_comment_initor (c : Int) : Bool := c = 59

/-- `is_underscore`: `'_'`. -/
def is_underscore (c : Int) : Bool := c = 95

/-- `is_sqmark`: `'\''`. -/
def is_sqmark (c : Int) : Bool := c = 39

/-- `is_dqmark`: `'"'`. -/
def is_dqmark (c : Int) : Bool := c = 34

/-- `is_symbol`: currently only `':'`. -/
def is_symbol (c : Int) : Bool := c = 58

/-- `is_whitespace`: tab, vertical tab, carriage return, space (not newline). -/
def is_whitespace (c : Int) : Bool := c = 9 || c = 11 || c = 13 || c = 32

/-! ## C strings

The `char` arrays handed to the recognizers and evaluators are NUL-terminated;
`strlen`/`strcmp`/`dupstr` see only the characters before the first NUL. -/

/-- The content of a `List Int` viewed as a C string: everything before the
first NUL byte (this is what `dupstr`, `strlen` and `strcmp` observe). -/
def cstr (s : List Int) : List Int := s.takeWhile (· ≠ 0)

/-- `substr(s, len)`: the first `len` characters of `s` (osa.c `substr`). -/
def substr (s : List Int) (len : Nat) : List Int := s.take len

/-- `is_terminal`: `strcmp(terminal, token) == 0` (osa.c). -/
def is_terminal (terminal tok : List Int) : Bool := cstr terminal == cstr tok

/-! ## Low-level recognizers (osa.c `is_id`, `is_bin`, `is_oct`, `is_dec`,
`is_hex`, `is_sqstr`, `is_dqstr`)

Each C recognizer is a `while`-loop FSM: it starts in state 2, repeatedly reads
the next character of the NUL-terminated string and dispatches on the current
state; state 0 records "invalid" and stops, state 1 records "valid" and stops
(the character read on such a final iteration is ignored).  We model each as a
fold of its transition function over `s ++ [0]` from state 2, with states 0
and 1 absorbing; the string is accepted iff the resulting state is 1.  From
states 2/3/4 the NUL always moves to state 0 or 1, so the single appended
sentinel is exactly what the C loop consumes. -/

/-- Run one of the recognizer FSMs over a C string. -/
def runFSM (step : Nat → Int → Nat) (s : List Int) : Bool :=
  (s ++ [0]).foldl step 2 == 1

/-- Transition function of `is_id` (osa.c). -/
def idStep (st : Nat) (c : Int) : Nat :=
  match st with
  | 2 => if is_letter c || is_underscore c then 3 else 0
  | 3 =>
    if is_eos c then 1
    else if is_letter c || is_digit c || is_underscore c then 3
    else 0
  | 1 => 1
  | _ => 0

/-- `is_id`: recognize an identifier. -/
def is_id (s : List Int) : Bool := runFSM idStep s

/-- Transition function of `is_bin` (osa.c). -/
def binStep (st : Nat) (c : Int) : Nat :=
  match st with
  | 2 => if is_bindigit c then 3 else 0
  | 3 => if is_bindigit c then 3 else if is_binsym c then 4 else 0
  | 4 => if is_eos c then 1 else 0
  | 1 => 1
  | _ => 0

/-- `is_bin`: recognize a binary numeral. -/
def is_bin (s : List Int) : Bool := runFSM binStep s

/-- Transition function of `is_oct` (osa.c). -/
def octStep (st : Nat) (c : Int) : Nat :=
  match st with
  | 2 => if is_octdigit c then 3 else 0
  | 3 => if is_octdigit c then 3 else if is_octsym c then 4 else 0
  | 4 => if is_eos c then 1 else 0
  | 1 => 1
  | _ => 0

/-- `is_oct`: recognize an octal numeral. -/
def is_oct (s : List Int) : Bool := runFSM octStep s

/-- Transition function of `is_dec` (osa.c); unlike the other bases, state 3
accepts EOS directly, making the decimal suffix optional. -/
def decStep (st : Nat) (c : Int) : Nat :=
  match st with
  | 2 => if is_decdigit c then 3 else 0
  | 3 =>
    if is_decdigit c then 3
    else if is_decsym c then 4
    else if is_eos c then 1
    else 0
  | 4 => if is_eos c then 1 else 0
  | 1 => 1
  | _ => 0

/-- `is_dec`: recognize a decimal numeral. -/
def is_dec (s : List Int) : Bool := runFSM decStep s

/-- Transition function of `is_hex` (osa.c). -/
def hexStep (st : Nat) (c : Int) : Nat :=
  match st with
  | 2 => if is_hexdigit c then 3 else 0
  | 3 => if is_hexdigit c then 3 else if is_hexsym c then 4 else 0
  | 4 => if is_eos c then 1 else 0
  | 1 => 1
  | _ => 0

/-- `is_hex`: recognize a hexadecimal numeral. -/
def is_hex (s : List Int) : Bool := runFSM hexStep s

/-- Transition function of `is_sqstr` (osa.c). -/
def sqstrStep (st : Nat) (c : Int) : Nat :=
  match st with
  | 2 => if is_sqmark c then 3 else 0
  | 3 =>
    if is_visible_ascii_character c && c ≠ 39 then 3
    else if is_sqmark c then 4
    else 0
  | 4 => if is_eos c then 1 else 0
  | 1 => 1
  | _ => 0

/-- `is_sqstr`: recognize a single-quoted string. -/
def is_sqstr (s : List Int) : Bool := runFSM sqstrStep s

/-- Transition function of `is_dqstr` (osa.c). -/
def dqstrStep (st : Nat) (c : Int) : Nat :=
  match st with
  | 2 => if is_dqmark c then 3 else 0
  | 3 =>
    if is_visible_ascii_character c && c ≠ 34 then 3
    else if is_dqmark c then 4
    else 0
  | 4 => if is_eos c then 1 else 0
  | 1 => 1
  | _ => 0

/-- `is_dqstr`: recognize a double-quoted string. -/
def is_dqstr (s : List Int) : Bool := runFSM dqstrStep s

/-- `is_int` (osa.c): any of the four integer numerals. -/
def is_int (s : List Int) : Bool := is_bin s || is_oct s || is_dec s || is_hex s

/-! ## Evaluators (osa.c `get_value`, `eval`, `eval_bin`, `eval_oct`,
`eval_dec`, `eval_hex`, `eval_sqstr`, `eval_dqstr`) -/

/-- The lookup table `"0123456789abcdef"` of `get_value`. -/
def digitTable : List Int :=
  [48, 49, 50, 51, 52, 53, 54, 55, 56, 57, 97, 98, 99, 100, 101, 102]

/-- `get_value`: search the table for `tolowercase c` and return its index,
or `-1` if there is no match. -/
def get_value (c : Int) : Int :=
  match digitTable.findIdx? (fun d => tolowercase c == d) with
  | some i => (i : Int)
  | none => -1

/-- The loop of `eval`: starting from the end of the string, accumulate
`integer += get_value(s[i]) * place; place *= base`.  The first argument is
the reversed character list. -/
def evalGo (base : Int) : List Int → Int → Int → Int
  | [], _, acc => acc
  | c :: cs, place, acc => evalGo base cs (place * base) (acc + get_value c * place)

/-- `eval`: positional evaluation of a digit string in the given base
(iterating from the last character of the C string backwards). -/
def eval (s : List Int) (base : Int) : Int := evalGo base (cstr s).reverse 1 0

/-- `eval_bin`: remove the appended suffix character and evaluate base 2. -/
def eval_bin (s : List Int) : Int := eval (cstr s).dropLast 2

/-- `eval_oct`. -/
def eval_oct (s : List Int) : Int := eval (cstr s).dropLast 8

/-- `eval_dec`: the decimal suffix is optional; strip it only if the last
character is `d`/`D`, then evaluate base 10. -/
def eval_dec (s : List Int) : Int :=
  if tolowercase ((cstr s).getLastD 0) = 100 then eval (cstr s).dropLast 10
  else eval (cstr s) 10

/-- `eval_hex`. -/
def eval_hex (s : List Int) : Int := eval (cstr s).dropLast 16

/-- `eval_sqstr`: `substr(s+1, strlen(s)-2)`, i.e. both delimiters stripped
(no escape processing). -/
def eval_sqstr (s : List Int) : List Int :=
  substr ((cstr s).drop 1) ((cstr s).length - 2)

/-- `eval_dqstr` just defers to `eval_sqstr`. -/
def eval_dqstr (s : List Int) : List Int := eval_sqstr s

/-! ## The lexeme buffer stack (osa.c `struct token`, `push_to_lexeme`,
`pop_from_lexeme`, `flush_lexeme`)

`struct token` holds `char lexeme[256]` (indices `0..255` are in bounds) and
the stack pointer `int top`.  For the safety claims we model the stack pointer
arithmetic together with the *array indices* each operation accesses.
`push_to_lexeme` executes `p->lexeme[p->top++] = c; p->lexeme[p->top] = '\0';`
after checking `p->top == 256`; `pop_from_lexeme` executes `p->top--;
c = p->lexeme[p->top]; p->lexeme[p->top] = '\0';` after checking
`p->top == -1`; `flush_lexeme` sets `top = 0`. -/

/-- The capacity of `char lexeme[256]`: indices `≥ 256` (or `< 0`) are out of
bounds. -/
def lexemeCapacity : Int := 256

/-- `flush_lexeme`: the stack pointer after a flush. -/
def flush_top : Int := 0

/-- `push_to_lexeme` on stack pointer `top`: `none` when the guard
`top == 256` fires (the program aborts via `fail`), otherwise the new stack
pointer together with the two lexeme-array indices written (the character at
`top`, then the NUL terminator at `top + 1`). -/
def push_to_lexeme (top : Int) : Option (Int × List Int) :=
  if top = 256 then none else some (top + 1, [top, top + 1])

/-- `pop_from_lexeme` on stack pointer `top`: `none` when the guard
`top == -1` fires, otherwise the new stack pointer together with the
lexeme-array index read and overwritten (which is `top - 1`). -/
def pop_from_lexeme (top : Int) : Option (Int × List Int) :=
  if top = -1 then none else some (top - 1, [top - 1])

/-- Run `n` pushes from stack pointer `top`, collecting every lexeme-array
index written; `none` as soon as one push aborts. -/
def pushRun : Nat → Int → Option (Int × List Int)
  | 0, top => some (top, [])
  | n + 1, top =>
    match push_to_lexeme top with
    | none => none
    | some (top', ws) =>
      match pushRun n top' with
      | none => none
      | some (tf, rest) => some (tf, ws ++ rest)

/-! ## The tokenizer FSM (osa.c `get_next_token`, `get_next_char`)

The scanner's input is the shared one-character register `input` plus the
still-unread part of the source; we model the two together as a single
`List Int` whose head is the current register (`cur`), with the empty list
standing for the situation where the register already holds `EOF` — `fgetc`
keeps returning `EOF` after the end of the file, so `get_next_char` on the
empty list yields `EOF` again (`cur [] = -1`, `adv [] = []`).

`get_next_token` is a fuel-indexed loop: one unit of fuel per iteration of the
C `while (!done)` loop.  Running out of fuel yields `Res.oof`; the states
`S2/S3/S5/S6` whose guard fails loop forever in C without consuming input,
which the model renders as running out of any amount of fuel (those
configurations are unreachable from the entry state `S1`).  A failed
`push_to_lexeme` calls `fail()` and aborts the whole process: `Res.abort`. -/

/-- The current character register (`input` in osa.c). -/
def cur : List Int → Int
  | [] => -1
  | c :: _ => c

/-- `input = get_next_char();`: advance past the current character. -/
def adv : List Int → List Int
  | [] => []
  | _ :: s => s

/-- The scanner states of `get_next_token` (states 1‥8, 5.1, 6.1 and the
final state 0 in the comment table of osa.c). -/
inductive SState where
  | s0 | s1 | s2 | s3 | s4 | s5 | s5_1 | s6 | s6_1 | s7 | s8
deriving DecidableEq, Repr

/-- The token under construction: the captured lexeme, the stack pointer
`top` of `struct token`, and the `eol`/`eof` flags. -/
structure RawTok where
  lexeme : List Int
  top : Int
  eol : Bool
  eof : Bool
deriving DecidableEq, Repr

/-- A freshly created and flushed token (`new_token` + `flush_lexeme`). -/
def freshTok : RawTok := ⟨[], 0, false, false⟩

/-- `push_to_lexeme(token, c)` during scanning: abort when the guard
`top == 256` fires, otherwise capture `c`. -/
def pushT (t : RawTok) (c : Int) : Option RawTok :=
  if t.top = 256 then none
  else some { t with lexeme := t.lexeme ++ [c], top := t.top + 1 }

/-- Outcome of a fuel-indexed computation: a result, a `fail()` abort, or
out of fuel. -/
inductive Res (α : Type) where
  | ok (a : α)
  | abort
  | oof
deriving DecidableEq, Repr

/-- One run of the `while (!done)` loop of `get_next_token`, from the given
state, token under construction, and input.  On reaching state 0 it returns
the finished raw token and the remaining input (register included). -/
def scanLoopF : Nat → SState → RawTok → List Int → Res (RawTok × List Int)
  | 0, _, _, _ => .oof
  | n + 1, st, tok, s =>
    match st with
    | .s0 => .ok (tok, s)
    | .s1 =>
      if is_whitespace (cur s) then scanLoopF n .s1 tok (adv s)
      else if is_symbol (cur s) then scanLoopF n .s2 tok s
      else if is_eol (cur s) then scanLoopF n .s3 tok s
      else if is_eof (cur s) then scanLoopF n .s4 tok s
      else if is_sqmark (cur s) then scanLoopF n .s5 tok s
      else if is_dqmark (cur s) then scanLoopF n .s6 tok s
      else if is_comment_initor (cur s) then scanLoopF n .s7 tok s
      else scanLoopF n .s8 tok s
    | .s2 =>
      if cur s = 58 then
        match pushT tok (cur s) with
        | none => .abort
        | some tok' => scanLoopF n .s0 tok' (adv s)
      else scanLoopF n .s2 tok s  -- no else in the C switch: loops forever
    | .s3 =>
      if is_eol (cur s) then scanLoopF n .s0 { tok with eol := true } (adv s)
      else scanLoopF n .s3 tok s  -- loops forever
    | .s4 =>
      if is_eof (cur s) then scanLoopF n .s0 { tok with eof := true } (adv s)
      else scanLoopF n .s4 tok s  -- loops forever
    | .s5 =>
      if is_sqmark (cur s) then
        match pushT tok (cur s) with
        | none => .abort
        | some tok' => scanLoopF n .s5_1 tok' (adv s)
      else scanLoopF n .s5 tok s  -- loops forever
    | .s5_1 =>
      if is_sqmark (cur s) then
        match pushT tok (cur s) with
        | none => .abort
        | some tok' => scanLoopF n .s0 tok' (adv s)
      else if is_eol (cur s) then scanLoopF n .s0 tok s
      else if is_eof (cur s) then scanLoopF n .s0 tok s
      else if is_comment_initor (cur s) then scanLoopF n .s0 tok s
      else
        match pushT tok (cur s) with
        | none => .abort
        | some tok' => scanLoopF n .s5_1 tok' (adv s)
    | .s6 =>
      if is_dqmark (cur s) then
        match pushT tok (cur s) with
        | none => .abort
        | some tok' => scanLoopF n .s6_1 tok' (adv s)
      else scanLoopF n .s6 tok s  -- loops forever
    | .s6_1 =>
      if is_dqmark (cur s) then
        match pushT tok (cur s) with
        | none => .abort
        | some tok' => scanLoopF n .s0 tok' (adv s)
      else if is_eol (cur s) then scanLoopF n .s0 tok s
      else if is_eof (cur s) then scanLoopF n .s0 tok s
      else if is_comment_initor (cur s) then scanLoopF n .s0 tok s
      else
        match pushT tok (cur s) with
        | none => .abort
        | some tok' => scanLoopF n .s6_1 tok' (adv s)
    | .s7 =>
      if is_eol (cur s) then scanLoopF n .s1 tok s
      else if is_eof (cur s) then scanLoopF n .s1 tok s
      else scanLoopF n .s7 tok (adv s)
    | .s8 =>
      if is_whitespace (cur s) then scanLoopF n .s0 tok s
      else if is_symbol (cur s) then scanLoopF n .s0 tok s
      else if is_eol (cur s) then scanLoopF n .s0 tok s
      else if is_eof (cur s) then scanLoopF n .s0 tok s
      else if is_sqmark (cur s) then scanLoopF n .s0 tok s
      else if is_dqmark (cur s) then scanLoopF n .s0 tok s
      else if is_comment_initor (cur s) then scanLoopF n .s0 tok s
      else
        match pushT tok (cur s) with
        | none => .abort
        | some tok' => scanLoopF n .s8 tok' (adv s)

/-! ## The lexer stage: classification of the finished lexeme
(state 0 of `get_next_token`) -/

/-- `token_type` (osa.c). -/
inductive TokenType where
  | t_id | t_int | t_colon | t_squote | t_dquote | t_eol | t_eof | t_unknown
deriving DecidableEq, Repr

/-- A classified token.  `intval`/`strval` are left uninitialized by
`new_token` and only assigned in the integer/string branches; `none` models
"not set". -/
structure Token where
  lexeme : List Int
  eol : Bool
  eof : Bool
  type : TokenType
  intval : Option Int
  strval : Option (List Int)
deriving DecidableEq, Repr

/-- The classification chain in state 0 of `get_next_token`: first match wins
in the order eol-flag, eof-flag, `":"`, binary, octal, decimal, hexadecimal,
identifier, single-quoted string, double-quoted string, unknown. -/
def classify (r : RawTok) : Token :=
  if r.eol then ⟨r.lexeme, r.eol, r.eof, .t_eol, none, none⟩
  else if r.eof then ⟨r.lexeme, r.eol, r.eof, .t_eof, none, none⟩
  else if is_terminal [58] r.lexeme then ⟨r.lexeme, r.eol, r.eof, .t_colon, none, none⟩
  else if is_bin r.lexeme then
    ⟨r.lexeme, r.eol, r.eof, .t_int, some (eval_bin r.lexeme), none⟩
  else if is_oct r.lexeme then
    ⟨r.lexeme, r.eol, r.eof, .t_int, some (eval_oct r.lexeme), none⟩
  else if is_dec r.lexeme then
    ⟨r.lexeme, r.eol, r.eof, .t_int, some (eval_dec r.lexeme), none⟩
  else if is_hex r.lexeme then
    ⟨r.lexeme, r.eol, r.eof, .t_int, some (eval_hex r.lexeme), none⟩
  else if is_id r.lexeme then ⟨r.lexeme, r.eol, r.eof, .t_id, none, none⟩
  else if is_sqstr r.lexeme then
    ⟨r.lexeme, r.eol, r.eof, .t_squote, none, some (eval_sqstr r.lexeme)⟩
  else if is_dqstr r.lexeme then
    ⟨r.lexeme, r.eol, r.eof, .t_dquote, none, some (eval_dqstr r.lexeme)⟩
  else ⟨r.lexeme, r.eol, r.eof, .t_unknown, none, none⟩

/-- Fuel bound for one `get_next_token` call: every loop iteration either
consumes an input character (at most `s.length + 1` times, counting the final
`EOF`) or moves along one of the short non-consuming state chains. -/
def scanFuel (s : List Int) : Nat := 5 * s.length + 16

/-- `get_next_token` with explicit fuel: scan one token, classify it. -/
def getNextTokenF (fuel : Nat) (s : List Int) : Res (Token × List Int) :=
  match scanLoopF fuel .s1 freshTok s with
  | .ok (r, rest) => .ok (classify r, rest)
  | .abort => .abort
  | .oof => .oof

/-- `get_next_token` on input `s` (register in head position). -/
def getNextToken (s : List Int) : Res (Token × List Int) :=
  getNextTokenF (scanFuel s) s

/-! ## The token stream

`get_ast` pulls tokens one at a time until the first `t_eof` token.  `tokensF`
is that consumption loop, returning the sequence of tokens consumed (the
terminating `t_eof` token included).  Every token before the final `t_eof`
consumes at least one input character, so `s.length + 1` tokens suffice. -/

/-- The stream of tokens produced by repeated `get_next_token` calls, up to
and including the first `t_eof` token. -/
def tokensF : Nat → List Int → Res (List Token)
  | 0, _ => .oof
  | n + 1, s =>
    match getNextToken s with
    | .ok (tok, rest) =>
      if tok.type = .t_eof then .ok [tok]
      else
        match tokensF n rest with
        | .ok ts => .ok (tok :: ts)
        | .abort => .abort
        | .oof => .oof
    | .abort => .abort
    | .oof => .oof

/-- The token stream of a finite input. -/
def tokens (s : List Int) : Res (List Token) := tokensF (s.length + 1) s

/-! ## Nodes and trees (osa.c `struct node`, `new_node`, `new_tree`,
`add_sibling`, `add_subtree`)

A `struct node` holds a data payload and two owning pointers `sibling` and
`subtree`; since every node is freshly allocated and linked in at exactly one
place, the heap reachable from the root is a binary tree, modelled by the
inductive `Node`.  The tree builder's cursors (`rootn`, `linen`, `tokenn`) are
pointers into that heap; we model a pointer as the *path* (sequence of
`sibling`/`subtree` steps) from the root. -/

/-- The payloads (`struct line_node`, `struct token_node`, `struct eof_node`),
tagged by `node_type`.  `line_node` carries `line_type` and `lineno`;
`token_node` carries the token (its `colno` field is never initialized by
`ast_token`/`ast_tokensibl` — the C statement `p->colno;` has no effect — so
it is omitted). -/
inductive NData where
  | lineD (line_type : Int) (lineno : Nat)
  | tokenD (tok : Token)
  | eofD
deriving DecidableEq, Repr

/-- `struct node`: payload (NULL allowed, as set by `new_node`) plus the
`sibling` and `subtree` links. -/
inductive Node where
  | mk (data : Option NData) (sibling : Option Node) (subtree : Option Node)

/-- The payload of a node. -/
def Node.data : Node → Option NData
  | .mk d _ _ => d

/-- The `sibling` link. -/
def Node.sibling : Node → Option Node
  | .mk _ sb _ => sb

/-- The `subtree` link. -/
def Node.subtree : Node → Option Node
  | .mk _ _ st => st

/-- `new_node()`: data, sibling, subtree all NULL (`new_tree` is the same). -/
def new_node : Node := .mk none none none

/-- One step of a pointer path. -/
inductive Dir where
  | sib | sub
deriving DecidableEq, Repr

/-- Follow a path from a node (`none` when a NULL link is crossed). -/
def getAt? : Node → List Dir → Option Node
  | n, [] => some n
  | .mk _ sb _, .sib :: p =>
    match sb with
    | none => none
    | some m => getAt? m p
  | .mk _ _ st, .sub :: p =>
    match st with
    | none => none
    | some m => getAt? m p

/-- Apply an in-place update to the node a path points at. -/
def updAt : Node → List Dir → (Node → Node) → Node
  | n, [], f => f n
  | .mk d sb st, .sib :: p, f =>
    .mk d (match sb with | none => none | some m => some (updAt m p f)) st
  | .mk d sb st, .sub :: p, f =>
    .mk d sb (match st with | none => none | some m => some (updAt m p f))

/-- Overwrite a node's payload (`n->data = p`). -/
def setData (d : NData) : Node → Node
  | .mk _ sb st => .mk (some d) sb st

/-- `add_sibling(target)`: if the target has no sibling, attach a fresh node
as its sibling; otherwise insert the fresh node between the target and its
old sibling.  Returns the updated tree and the path to the new node.  (The
target path always designates an existing node in every call `get_ast`
makes; on a dangling path this model leaves the tree unchanged, where the C
code would dereference NULL.) -/
def add_sibling (root : Node) (p : List Dir) : Node × List Dir :=
  match getAt? root p with
  | none => (root, p ++ [.sib])
  | some t =>
    match t.sibling with
    | none =>
      (updAt root p (fun n => .mk n.data (some new_node) n.subtree), p ++ [.sib])
    | some old =>
      (updAt root p (fun n => .mk n.data (some (.mk none (some old) none)) n.subtree),
       p ++ [.sib])

/-- `add_subtree(target)`: same discipline on the `subtree` link; note that in
the occupied case the C code hangs the old child below the *subtree* link of
the fresh node (`node->subtree = old`). -/
def add_subtree (root : Node) (p : List Dir) : Node × List Dir :=
  match getAt? root p with
  | none => (root, p ++ [.sub])
  | some t =>
    match t.subtree with
    | none =>
      (updAt root p (fun n => .mk n.data n.sibling (some new_node)), p ++ [.sub])
    | some old =>
      (updAt root p (fun n => .mk n.data n.sibling (some (.mk none none (some old)))),
       p ++ [.sub])

/-! ## The tree builder (osa.c `get_ast`, `ast_line`, `ast_linesibl`,
`ast_token`, `ast_tokensibl`, `ast_eof`, `ast_eofsibl`) -/

/-- `LT_UNDEFINED` (first member of the line-type enum). -/
def LT_UNDEFINED : Int := 0

/-- `ast_line(parent, line_type, lineno)`: new subtree child carrying a line
payload. -/
def ast_line (root : Node) (p : List Dir) (lt : Int) (lineno : Nat) : Node × List Dir :=
  let (r, p') := add_subtree root p
  (updAt r p' (setData (.lineD lt lineno)), p')

/-- `ast_linesibl(sister, line_type, lineno)`. -/
def ast_linesibl (root : Node) (p : List Dir) (lt : Int) (lineno : Nat) : Node × List Dir :=
  let (r, p') := add_sibling root p
  (updAt r p' (setData (.lineD lt lineno)), p')

/-- `ast_token(parent, token, colno)`. -/
def ast_token (root : Node) (p : List Dir) (tok : Token) : Node × List Dir :=
  let (r, p') := add_subtree root p
  (updAt r p' (setData (.tokenD tok)), p')

/-- `ast_tokensibl(sister, token, colno)`. -/
def ast_tokensibl (root : Node) (p : List Dir) (tok : Token) : Node × List Dir :=
  let (r, p') := add_sibling root p
  (updAt r p' (setData (.tokenD tok)), p')

/-- `ast_eof(parent)`. -/
def ast_eof (root : Node) (p : List Dir) : Node × List Dir :=
  let (r, p') := add_subtree root p
  (updAt r p' (setData .eofD), p')

/-- `ast_eofsibl(sister)`. -/
def ast_eofsibl (root : Node) (p : List Dir) : Node × List Dir :=
  let (r, p') := add_sibling root p
  (updAt r p' (setData .eofD), p')

/-- The `while (token->type != t_eof)` loop of `get_ast`: `linen` and
`tokenn` are the "last line added" and "last token added" cursors.  On the
`t_eof` token the loop exits and `ast_eofsibl(linen)` appends the terminal
marker. -/
def astLoopF : Nat → Node → List Dir → List Dir → List Int → Res Node
  | 0, _, _, _, _ => .oof
  | n + 1, root, linen, tokenn, s =>
    match getNextToken s with
    | .abort => .abort
    | .oof => .oof
    | .ok (token, rest) =>
      if token.type = .t_eof then
        .ok (ast_eofsibl root linen).1
      else if token.type = .t_eol then
        let (r, lp) := ast_linesibl root linen LT_UNDEFINED 0
        astLoopF n r lp tokenn rest
      else
        if ((getAt? root linen).bind Node.subtree).isNone then
          let (r, tp) := ast_token root linen token
          astLoopF n r linen tp rest
        else
          let (r, tp) := ast_tokensibl root tokenn token
          astLoopF n r linen tp rest

/-- `get_ast()`: create the root, handle the first token specially (EOF →
lone EOF node; EOL → empty first line; otherwise a first line holding the
token), then run the consumption loop.  The initial `tokenn` cursor is the
root path, mirroring the uninitialized C variable: it is only ever read after
`ast_token` has assigned it. -/
def get_ast (s : List Int) : Res Node :=
  let rootn := new_node
  match getNextToken s with
  | .abort => .abort
  | .oof => .oof
  | .ok (token, rest) =>
    if token.type = .t_eof then
      let (r, lp) := ast_eof rootn []
      astLoopF (rest.length + 1) r lp [] rest
    else if token.type = .t_eol then
      let (r, lp) := ast_line rootn [] LT_UNDEFINED 0
      astLoopF (rest.length + 1) r lp [] rest
    else
      let (r, lp) := ast_line rootn [] LT_UNDEFINED 0
      let (r2, tp) := ast_token r lp token
      astLoopF (rest.length + 1) r2 lp tp rest

/-- The payloads along a sibling chain (used to state what hangs directly
below the root). -/
def chainData : Option Node → List (Option NData)
  | none => []
  | some (.mk d sb _) => d :: chainData sb

/-! ## Specification-side definitions

The specification (§4.3) states the classifier as a first-match-wins list of
*grammars*; the following definitions transcribe those grammars and that
order directly from the specification's words, to be compared with the
implementation's recognizer FSMs and classification chain. -/

/-- The tail of a suffixed-numeral grammar after its first digit:
`digit* suffix` (also used, with the appropriate character classes, for the
body-and-closing-delimiter tail of a quoted-string grammar). -/
def specNumTail (dP sP : Int → Bool) : List Int → Bool
  | [] => false
  | [f] => sP f
  | c :: cs => dP c && specNumTail dP sP cs

/-- Spec §4.3 item 4: the binary-numeral grammar `binary-digit+ binary-suffix`. -/
def specBin : List Int → Bool
  | [] => false
  | c :: cs => is_bindigit c && specNumTail is_bindigit is_binsym cs

/-- Spec §4.3 item 5: `octal-digit+ octal-suffix`. -/
def specOct : List Int → Bool
  | [] => false
  | c :: cs => is_octdigit c && specNumTail is_octdigit is_octsym cs

/-- The tail of the decimal-numeral grammar after its first digit:
`decimal-digit* [decimal-suffix]` — the suffix is optional. -/
def specDecTail : List Int → Bool
  | [] => true
  | [f] => is_decdigit f || is_decsym f
  | c :: cs => is_decdigit c && specDecTail cs

/-- Spec §4.3 item 6: `decimal-digit+ [decimal-suffix]`. -/
def specDec : List Int → Bool
  | [] => false
  | c :: cs => is_decdigit c && specDecTail cs

/-- Spec §4.3 item 7: `hex-digit+ hex-suffix`. -/
def specHex : List Int → Bool
  | [] => false
  | c :: cs => is_hexdigit c && specNumTail is_hexdigit is_hexsym cs

/-- Spec §4.3 item 8: the identifier grammar
`(letter|underscore)(letter|digit|underscore)*`. -/
def specId : List Int → Bool
  | [] => false
  | c :: cs =>
    (is_letter c || is_underscore c) &&
      cs.all (fun x => is_letter x || is_digit x || is_underscore x)

/-- Spec §4.3 item 9: the single-quoted-string grammar
`'` printable-except-`'`* `'`. -/
def specSqstr : List Int → Bool
  | [] => false
  | c :: cs =>
    is_sqmark c &&
      specNumTail (fun x => is_visible_ascii_character x && x ≠ 39) is_sqmark cs

/-- Spec §4.3 item 10: the double-quoted-string grammar, symmetric. -/
def specDqstr : List Int → Bool
  | [] => false
  | c :: cs =>
    is_dqmark c &&
      specNumTail (fun x => is_visible_ascii_character x && x ≠ 34) is_dqmark cs

/-- Spec §4.3 integer evaluation: most-significant-digit first, accumulating
`value = value * base + digit` with digits looked up in the base-16 alphabet. -/
def msd_eval (base : Int) (ds : List Int) : Int :=
  ds.foldl (fun a c => a * base + get_value c) 0

/-- The decimal suffix normalization: strip the optional `d`/`D`. -/
def stripDec (s : List Int) : List Int :=
  if is_decsym (s.getLastD 0) then s.dropLast else s

/-- The classifier exactly as the specification states it (§4.3, items 1-11
in order, first match wins), over the same raw-token data as `classify`. -/
def specClassify (r : RawTok) : Token :=
  if r.eol then ⟨r.lexeme, r.eol, r.eof, .t_eol, none, none⟩
  else if r.eof then ⟨r.lexeme, r.eol, r.eof, .t_eof, none, none⟩
  else if r.lexeme = [58] then ⟨r.lexeme, r.eol, r.eof, .t_colon, none, none⟩
  else if specBin r.lexeme then
    ⟨r.lexeme, r.eol, r.eof, .t_int, some (msd_eval 2 r.lexeme.dropLast), none⟩
  else if specOct r.lexeme then
    ⟨r.lexeme, r.eol, r.eof, .t_int, some (msd_eval 8 r.lexeme.dropLast), none⟩
  else if specDec r.lexeme then
    ⟨r.lexeme, r.eol, r.eof, .t_int, some (msd_eval 10 (stripDec r.lexeme)), none⟩
  else if specHex r.lexeme then
    ⟨r.lexeme, r.eol, r.eof, .t_int, some (msd_eval 16 r.lexeme.dropLast), none⟩
  else if specId r.lexeme then ⟨r.lexeme, r.eol, r.eof, .t_id, none, none⟩
  else if specSqstr r.lexeme then
    ⟨r.lexeme, r.eol, r.eof, .t_squote, none, some (r.lexeme.drop 1).dropLast⟩
  else if specDqstr r.lexeme then
    ⟨r.lexeme, r.eol, r.eof, .t_dquote, none, some (r.lexeme.drop 1).dropLast⟩
  else ⟨r.lexeme, r.eol, r.eof, .t_unknown, none, none⟩

/-- Modelled from the spec: `format(base, value)` — the canonical positional
rendering of a value in a base, using the same digit alphabet
`0123456789abcdef` as the evaluator (spec §8 round-trip property; no
formatting routine exists in osa.c). -/
def fmt (base n : Nat) : List Int :=
  if n = 0 then [48] else ((Nat.digits base n).reverse).map valChar
  where
    valChar (v : Nat) : Int := if v < 10 then 48 + (v : Int) else 87 + (v : Int)

/-- "No leading zero": the digit part is canonical, i.e. either it is the
single digit `0` or its first digit is not `0`. -/
def noLeadZero (ds : List Int) : Prop := ds.headD 0 ≠ 48 ∨ ds = [48]

/-! ## Remaining auxiliary definitions used by the proofs -/

/-- A value `fgetc` can deliver for an ordinary input character. -/
def isByte (c : Int) : Prop := 0 ≤ c ∧ c ≤ 255

/-- The common shape of the recognizer FSMs `is_bin`/`is_oct`/`is_hex`/
`is_sqstr`/`is_dqstr`: a gate character class for state 2, a repeatable class
for state 3, and a closing class leading to state 4. -/
def gateStep (qP dP sP : Int → Bool) (st : Nat) (c : Int) : Nat :=
  match st with
  | 2 => if qP c then 3 else 0
  | 3 => if dP c then 3 else if sP c then 4 else 0
  | 4 => if is_eos c then 1 else 0
  | 1 => 1
  | _ => 0

/-- The character classes that terminate a generic capture (state 8) without
being consumed — the same classes state 1 dispatches on. -/
def special8 (c : Int) : Bool :=
  is_whitespace c || is_symbol c || is_eol c || is_eof c ||
    is_sqmark c || is_dqmark c || is_comment_initor c

/-- Little-endian positional value of a digit-character list under
`get_value` (the summation `eval` computes, written head-first over the
reversed string). -/
def ofVals (b : Int) : List Int → Int
  | [] => 0
  | c :: cs => get_value c + b * ofVals b cs

/-- The scanner configurations whose state's C `switch` case would loop
forever if its guard failed: states 2-6 re-test the very character class that
routed control to them, so they are only ever entered with the guard true. -/
def live : SState → Int → Prop
  | .s2, c => c = 58
  | .s3, c => is_eol c = true
  | .s4, c => is_eof c = true
  | .s5, c => is_sqmark c = true
  | .s6, c => is_dqmark c = true
  | _, _ => True

/-- Weight of a scanner state for the termination measure: every
non-consuming transition strictly decreases the weight (for the fixed current
character), and every consuming transition decreases the character count. -/
def stw : SState → Int → Nat
  | .s0, _ => 0
  | .s1, _ => 3
  | .s7, c => if is_eol c || is_eof c then 4 else 2
  | _, _ => 1

/-- The token invariant of the spec's §3: exactly one of the `eol` flag, the
`eof` flag, or a non-empty lexeme. -/
def rawOk (t : RawTok) : Prop :=
  (t.eol = true ∧ t.eof = false ∧ t.lexeme = []) ∨
  (t.eol = false ∧ t.eof = true ∧ t.lexeme = []) ∨
  (t.eol = false ∧ t.eof = false ∧ t.lexeme ≠ [])

/-- The per-state scanner invariant from which `rawOk` follows at state 0:
before any capture the lexeme is empty and no flag is set; inside a quoted
string the opening delimiter has been captured; in generic capture an empty
lexeme means the current character is about to be captured. -/
def scanInv : SState → RawTok → List Int → Prop
  | .s0, tok, _ => rawOk tok
  | .s5_1, tok, _ => tok.eol = false ∧ tok.eof = false ∧ tok.lexeme ≠ []
  | .s6_1, tok, _ => tok.eol = false ∧ tok.eof = false ∧ tok.lexeme ≠ []
  | .s8, tok, s =>
    tok.eol = false ∧ tok.eof = false ∧
      (tok.lexeme = [] → special8 (cur s) = false)
  | _, tok, _ => tok.eol = false ∧ tok.eof = false ∧ tok.lexeme = []

/-! # Theorems

Helper lemmas first, then for each claim its theorem (with witness or
counterexample where required). -/

/-- `tolowercase` fixes anything outside the uppercase range. -/
theorem tolowercase_eq_self {c : Int} (h : c < 65 ∨ 90 < c) : tolowercase c = c := by
  rw [tolowercase, if_neg]
  omega

/-- `tolowercase` shifts an uppercase letter. -/
theorem tolowercase_upper {c : Int} (h : 65 ≤ c ∧ c ≤ 90) : tolowercase c = c + 32 := by
  rw [tolowercase, if_pos h]

/-- A C string with no embedded NUL is its own content. -/
theorem cstr_eq_self {s : List Int} (hs : (0 : Int) ∉ s) : cstr s = s := by
  induction s with
  | nil => rfl
  | cons c cs ih =>
    simp only [List.mem_cons, not_or] at hs
    rw [cstr, List.takeWhile_cons, if_pos (by simpa using Ne.symm hs.1)]
    exact congrArg (c :: ·) (ih hs.2)

/-- Folding from an absorbing state stays there. -/
theorem foldl_fix (step : Nat → Int → Nat) (a : Nat) (h : ∀ c, step a c = a) :
    ∀ l : List Int, l.foldl step a = a
  | [] => rfl
  | c :: cs => by rw [List.foldl_cons, h c, foldl_fix step a h cs]

/-- Runs from state 4 of any of the recognizer FSMs accept exactly the empty
remainder: state 4 demands the end of the string. -/
theorem foldl_from4 (step : Nat → Int → Nat) (h40 : step 4 0 = 1)
    (h4 : ∀ c, c ≠ 0 → step 4 c = 0) (h0 : ∀ c, step 0 c = 0)
    (h1 : ∀ c, step 1 c = 1) :
    ∀ l : List Int, (0 : Int) ∉ l → (((l ++ [0]).foldl step 4 == 1) = (l == [])) := by
  intro l hl
  cases l with
  | nil => simp [h40, h1, foldl_fix step 1 h1]
  | cons c cs =>
    simp only [List.mem_cons, not_or] at hl
    rw [List.cons_append, List.foldl_cons, h4 c (Ne.symm hl.1),
      foldl_fix step 0 h0]
    simp

/-- State 0 of `gateStep` is absorbing. -/
theorem gateStep_fix0 (qP dP sP : Int → Bool) : ∀ c, gateStep qP dP sP 0 c = 0 :=
  fun _ => rfl

/-- State 1 of `gateStep` is absorbing. -/
theorem gateStep_fix1 (qP dP sP : Int → Bool) : ∀ c, gateStep qP dP sP 1 c = 1 :=
  fun _ => rfl

/-- Runs from state 3 of a gate-shaped recognizer FSM accept exactly the
`digit* closing-class` tails, i.e. the `specNumTail` language. -/
theorem gate_from3 (qP dP sP : Int → Bool) (hd0 : dP 0 = false)
    (hs0 : sP 0 = false) (hdisj : ∀ c, dP c = true → sP c = false) :
    ∀ l : List Int, (0 : Int) ∉ l →
      (((l ++ [0]).foldl (gateStep qP dP sP) 3 == 1) = specNumTail dP sP l) := by
  intro l
  induction l with
  | nil =>
    intro _
    simp [gateStep, hd0, hs0, specNumTail]
  | cons c cs ih =>
    intro hl
    simp only [List.mem_cons, not_or] at hl
    obtain ⟨hc, hcs⟩ := hl
    replace hc : c ≠ 0 := Ne.symm hc
    rw [List.cons_append, List.foldl_cons]
    by_cases hd : dP c = true
    · rw [show gateStep qP dP sP 3 c = 3 by simp [gateStep, hd], ih hcs]
      cases cs with
      | nil => simp [specNumTail, hdisj c hd]
      | cons d ds => simp [specNumTail, hd]
    · by_cases hs : sP c = true
      · rw [show gateStep qP dP sP 3 c = 4 by
            simp [gateStep, hs, Bool.not_eq_true] at *
            simp [hd, hs],
          foldl_from4 (gateStep qP dP sP) (by simp [gateStep, is_eos])
            (fun x hx => by simp [gateStep, is_eos, hx])
            (gateStep_fix0 qP dP sP) (gateStep_fix1 qP dP sP) cs hcs]
        cases cs with
        | nil => simp [specNumTail, hs]
        | cons d ds => simp [specNumTail, Bool.not_eq_true] at *; simp [hd]
      · rw [show gateStep qP dP sP 3 c = 0 by
            simp [Bool.not_eq_true] at hd hs
            simp [gateStep, hd, hs],
          foldl_fix _ 0 (gateStep_fix0 qP dP sP)]
        cases cs with
        | nil => simp [specNumTail, Bool.not_eq_true] at *; simp [hs]
        | cons d ds => simp [specNumTail, Bool.not_eq_true] at *; simp [hd]

/-- A gate-shaped recognizer accepts exactly `gate-char` followed by a
`specNumTail` tail. -/
theorem gate_main (qP dP sP : Int → Bool) (hq0 : qP 0 = false)
    (hd0 : dP 0 = false) (hs0 : sP 0 = false)
    (hdisj : ∀ c, dP c = true → sP c = false) :
    ∀ s : List Int, (0 : Int) ∉ s →
      (runFSM (gateStep qP dP sP) s =
        match s with
        | [] => false
        | c :: cs => qP c && specNumTail dP sP cs) := by
  intro s hs
  cases s with
  | nil => simp [runFSM, gateStep, hq0]
  | cons c cs =>
    simp only [List.mem_cons, not_or] at hs
    rw [runFSM, List.cons_append, List.foldl_cons]
    by_cases hq : qP c = true
    · rw [show gateStep qP dP sP 2 c = 3 by simp [gateStep, hq],
        gate_from3 qP dP sP hd0 hs0 hdisj cs hs.2]
      simp [hq]
    · rw [show gateStep qP dP sP 2 c = 0 by
          simp [Bool.not_eq_true] at hq
          simp [gateStep, hq],
        foldl_fix _ 0 (gateStep_fix0 qP dP sP)]
      simp [Bool.not_eq_true] at hq
      simp [hq]

/-- Binary digits and the binary suffix are disjoint classes. -/
theorem bin_disj : ∀ c : Int, is_bindigit c = true → is_binsym c = false := by
  intro c h
  simp only [is_bindigit, Bool.or_eq_true, decide_eq_true_eq] at h
  rcases h with h | h <;> subst h <;> decide

/-- Octal digits and the octal suffix are disjoint classes. -/
theorem oct_disj : ∀ c : Int, is_octdigit c = true → is_octsym c = false := by
  intro c h
  simp only [is_octdigit, is_digit, Bool.and_eq_true, decide_eq_true_eq,
    Bool.not_eq_true', decide_eq_false_iff_not] at h
  simp only [is_octsym, decide_eq_false_iff_not]
  rw [tolowercase_eq_self (by omega)]
  omega

/-- Hexadecimal digits and the hexadecimal suffix are disjoint classes. -/
theorem hex_disj : ∀ c : Int, is_hexdigit c = true → is_hexsym c = false := by
  intro c h
  simp only [is_hexdigit, is_digit, Bool.or_eq_true, Bool.and_eq_true,
    decide_eq_true_eq] at h
  simp only [is_hexsym, decide_eq_false_iff_not]
  rcases h with h | h
  · rw [tolowercase_eq_self (by omega)]
    omega
  · omega

/-- `is_bin`'s transition table is gate-shaped. -/
theorem binStep_eq : binStep = gateStep is_bindigit is_bindigit is_binsym := by
  funext st c
  rcases st with _ | _ | _ | _ | _ | n <;> rfl

/-- `is_oct`'s transition table is gate-shaped. -/
theorem octStep_eq : octStep = gateStep is_octdigit is_octdigit is_octsym := by
  funext st c
  rcases st with _ | _ | _ | _ | _ | n <;> rfl

/-- `is_hex`'s transition table is gate-shaped. -/
theorem hexStep_eq : hexStep = gateStep is_hexdigit is_hexdigit is_hexsym := by
  funext st c
  rcases st with _ | _ | _ | _ | _ | n <;> rfl

/-- `is_sqstr`'s transition table is gate-shaped. -/
theorem sqstrStep_eq :
    sqstrStep =
      gateStep is_sqmark (fun x => is_visible_ascii_character x && x ≠ 39) is_sqmark := by
  funext st c
  rcases st with _ | _ | _ | _ | _ | n <;> rfl

/-- `is_dqstr`'s transition table is gate-shaped. -/
theorem dqstrStep_eq :
    dqstrStep =
      gateStep is_dqmark (fun x => is_visible_ascii_character x && x ≠ 34) is_dqmark := by
  funext st c
  rcases st with _ | _ | _ | _ | _ | n <;> rfl

/-- The binary recognizer FSM accepts exactly the spec's binary grammar. -/
theorem is_bin_eq_spec {s : List Int} (hs : (0 : Int) ∉ s) : is_bin s = specBin s := by
  rw [is_bin, binStep_eq,
    gate_main _ _ _ (by decide) (by decide) (by decide) bin_disj s hs]
  cases s <;> simp [specBin]

/-- The octal recognizer FSM accepts exactly the spec's octal grammar. -/
theorem is_oct_eq_spec {s : List Int} (hs : (0 : Int) ∉ s) : is_oct s = specOct s := by
  rw [is_oct, octStep_eq,
    gate_main _ _ _ (by decide) (by decide) (by decide) oct_disj s hs]
  cases s <;> simp [specOct]

/-- The hexadecimal recognizer FSM accepts exactly the spec's hexadecimal
grammar. -/
theorem is_hex_eq_spec {s : List Int} (hs : (0 : Int) ∉ s) : is_hex s = specHex s := by
  rw [is_hex, hexStep_eq,
    gate_main _ _ _ (by decide) (by decide) (by decide) hex_disj s hs]
  cases s <;> simp [specHex]

/-- The single-quoted-string FSM accepts exactly the spec's grammar. -/
theorem is_sqstr_eq_spec {s : List Int} (hs : (0 : Int) ∉ s) :
    is_sqstr s = specSqstr s := by
  rw [is_sqstr, sqstrStep_eq,
    gate_main _ _ _ (by decide) (by decide) (by decide)
      (fun c h => by
        simp only [Bool.and_eq_true, decide_eq_true_eq] at h
        simp [is_sqmark, h.2]) s hs]
  cases s <;> simp [specSqstr]

/-- The double-quoted-string FSM accepts exactly the spec's grammar. -/
theorem is_dqstr_eq_spec {s : List Int} (hs : (0 : Int) ∉ s) :
    is_dqstr s = specDqstr s := by
  rw [is_dqstr, dqstrStep_eq,
    gate_main _ _ _ (by decide) (by decide) (by decide)
      (fun c h => by
        simp only [Bool.and_eq_true, decide_eq_true_eq] at h
        simp [is_dqmark, h.2]) s hs]
  cases s <;> simp [specDqstr]

/-- Runs from state 3 of the decimal FSM accept exactly the
`decimal-digit* [decimal-suffix]` tails. -/
theorem dec_from3 :
    ∀ l : List Int, (0 : Int) ∉ l →
      (((l ++ [0]).foldl decStep 3 == 1) = specDecTail l) := by
  intro l
  induction l with
  | nil =>
    intro _
    decide
  | cons c cs ih =>
    intro hl
    simp only [List.mem_cons, not_or] at hl
    obtain ⟨hc, hcs⟩ := hl
    replace hc : c ≠ 0 := Ne.symm hc
    rw [List.cons_append, List.foldl_cons]
    by_cases hd : is_decdigit c = true
    · rw [show decStep 3 c = 3 by simp [decStep, hd], ih hcs]
      cases cs with
      | nil => simp [specDecTail, hd]
      | cons d ds => simp [specDecTail, hd]
    · by_cases hsy : is_decsym c = true
      · rw [show decStep 3 c = 4 by
            simp [Bool.not_eq_true] at hd
            simp [decStep, hd, hsy],
          foldl_from4 decStep (by decide)
            (fun x hx => by simp [decStep, is_eos, hx])
            (fun _ => rfl) (fun _ => rfl) cs hcs]
        cases cs with
        | nil => simp [specDecTail, hsy]
        | cons d ds =>
          simp [Bool.not_eq_true] at hd
          simp [specDecTail, hd]
      · rw [show decStep 3 c = 0 by
            simp [Bool.not_eq_true] at hd hsy
            simp [decStep, hd, hsy, is_eos, hc],
          foldl_fix decStep 0 (fun _ => rfl)]
        cases cs with
        | nil =>
          simp [Bool.not_eq_true] at hd hsy
          simp [specDecTail, hd, hsy]
        | cons d ds =>
          simp [Bool.not_eq_true] at hd
          simp [specDecTail, hd]

/-- The decimal recognizer FSM accepts exactly the spec's decimal grammar
(optional suffix). -/
theorem is_dec_eq_spec {s : List Int} (hs : (0 : Int) ∉ s) : is_dec s = specDec s := by
  cases s with
  | nil => decide
  | cons c cs =>
    simp only [List.mem_cons, not_or] at hs
    rw [is_dec, runFSM, List.cons_append, List.foldl_cons]
    by_cases hd : is_decdigit c = true
    · rw [show decStep 2 c = 3 by simp [decStep, hd], dec_from3 cs hs.2]
      simp [specDec, hd]
    · rw [show decStep 2 c = 0 by
          simp [Bool.not_eq_true] at hd
          simp [decStep, hd],
        foldl_fix decStep 0 (fun _ => rfl)]
      simp [Bool.not_eq_true] at hd
      simp [specDec, hd]

/-- Runs from state 3 of the identifier FSM accept exactly the
`(letter|digit|underscore)*` tails. -/
theorem id_from3 :
    ∀ l : List Int, (0 : Int) ∉ l →
      (((l ++ [0]).foldl idStep 3 == 1) =
        l.all (fun x => is_letter x || is_digit x || is_underscore x)) := by
  intro l
  induction l with
  | nil =>
    intro _
    decide
  | cons c cs ih =>
    intro hl
    simp only [List.mem_cons, not_or] at hl
    obtain ⟨hc, hcs⟩ := hl
    replace hc : c ≠ 0 := Ne.symm hc
    rw [List.cons_append, List.foldl_cons]
    by_cases hv : (is_letter c || is_digit c || is_underscore c) = true
    · rw [show idStep 3 c = 3 by simp [idStep, is_eos, hc, hv], ih hcs]
      simp [hv]
    · rw [show idStep 3 c = 0 by
          simp [Bool.not_eq_true] at hv
          simp [idStep, is_eos, hc, hv],
        foldl_fix idStep 0 (fun _ => rfl)]
      simp [Bool.not_eq_true] at hv
      simp [hv]

/-- The identifier FSM accepts exactly the spec's identifier grammar. -/
theorem is_id_eq_spec {s : List Int} (hs : (0 : Int) ∉ s) : is_id s = specId s := by
  cases s with
  | nil => decide
  | cons c cs =>
    simp only [List.mem_cons, not_or] at hs
    rw [is_id, runFSM, List.cons_append, List.foldl_cons]
    by_cases hv : (is_letter c || is_underscore c) = true
    · rw [show idStep 2 c = 3 by simp [idStep, hv], id_from3 cs hs.2]
      simp [specId, hv]
    · rw [show idStep 2 c = 0 by
          simp [Bool.not_eq_true] at hv
          simp [idStep, hv],
        foldl_fix idStep 0 (fun _ => rfl)]
      simp [Bool.not_eq_true] at hv
      simp [specId, hv]

/-- `is_terminal(":", s)` compares C-string contents: without embedded NULs
it is plain list equality with `":"`. -/
theorem is_terminal_colon {s : List Int} (hs : (0 : Int) ∉ s) :
    is_terminal [58] s = decide (s = [58]) := by
  rw [is_terminal, cstr_eq_self hs, show cstr [58] = [58] from rfl]
  by_cases h : s = [58]
  · simp [h]
  · rw [decide_eq_false h, beq_eq_false_iff_ne]
    exact fun hh => h hh.symm

/-- The backwards place-value loop of `eval` computes
`acc + place * (little-endian value)`. -/
theorem evalGo_eq (b : Int) :
    ∀ (l : List Int) (p a : Int), evalGo b l p a = a + p * ofVals b l
  | [], p, a => by simp [evalGo, ofVals]
  | c :: cs, p, a => by
    rw [evalGo, evalGo_eq b cs, ofVals]
    ring

/-- Appending a most-significant digit to a little-endian value. -/
theorem ofVals_append (b : Int) :
    ∀ (l : List Int) (c : Int),
      ofVals b (l ++ [c]) = ofVals b l + b ^ l.length * get_value c
  | [], c => by simp [ofVals]
  | d :: ds, c => by
    rw [List.cons_append, ofVals, ofVals_append b ds c, ofVals]
    simp only [List.length_cons, pow_succ]
    ring

/-- The spec's most-significant-digit-first accumulation equals the
little-endian value of the reversed string. -/
theorem foldl_msd (b : Int) :
    ∀ (l : List Int) (a : Int),
      l.foldl (fun x c => x * b + get_value c) a =
        a * b ^ l.length + ofVals b l.reverse
  | [], a => by simp [ofVals]
  | c :: cs, a => by
    rw [List.foldl_cons, foldl_msd b cs, List.reverse_cons, ofVals_append]
    simp only [List.length_reverse, List.length_cons, pow_succ]
    ring

/-- The implemented evaluator agrees with the spec's
most-significant-digit-first accumulation on every string. -/
theorem eval_eq_msd {s : List Int} (hs : (0 : Int) ∉ s) (b : Int) :
    eval s b = msd_eval b s := by
  rw [eval, cstr_eq_self hs, evalGo_eq, msd_eval, foldl_msd]
  ring

/-- `get_value` on a decimal digit character. -/
theorem get_value_digit {c : Int} (h : is_digit c = true) : get_value c = c - 48 := by
  simp only [is_digit, Bool.and_eq_true, decide_eq_true_eq] at h
  obtain ⟨h1, h2⟩ := h
  interval_cases c <;> decide

/-- `get_value` on a hexadecimal letter. -/
theorem get_value_hexletter {c : Int}
    (h : 97 ≤ tolowercase c ∧ tolowercase c ≤ 102) :
    get_value c = tolowercase c - 87 := by
  by_cases hu : 65 ≤ c ∧ c ≤ 90
  · rw [tolowercase_upper hu] at h ⊢
    have h65 : 65 ≤ c := by omega
    have h70 : c ≤ 70 := by omega
    interval_cases c <;> decide
  · rw [tolowercase_eq_self (by omega)] at h ⊢
    obtain ⟨h1, h2⟩ := h
    interval_cases c <;> decide

/-- `fmt`'s digit alphabet renders a decimal digit's value back to the same
character. -/
theorem valChar_digit {c : Int} (h : is_digit c = true) :
    fmt.valChar ((get_value c).toNat) = tolowercase c := by
  rw [get_value_digit h]
  simp only [is_digit, Bool.and_eq_true, decide_eq_true_eq] at h
  rw [tolowercase_eq_self (by omega), fmt.valChar, if_pos (by omega)]
  omega

/-- `fmt`'s digit alphabet renders a hexadecimal letter's value back to the
lowercased letter. -/
theorem valChar_hexletter {c : Int}
    (h : 97 ≤ tolowercase c ∧ tolowercase c ≤ 102) :
    fmt.valChar ((get_value c).toNat) = tolowercase c := by
  rw [get_value_hexletter h, fmt.valChar, if_neg (by omega)]
  omega

/-- Characters whose `tolowercase` is `'0'` are exactly `'0'`. -/
theorem tolowercase_eq_48 {c : Int} (h : tolowercase c = 48) : c = 48 := by
  by_cases hu : 65 ≤ c ∧ c ≤ 90
  · rw [tolowercase_upper hu] at h
    omega
  · rwa [tolowercase_eq_self (by omega)] at h

/-- Little-endian values of nonnegative digit values agree with
`Nat.ofDigits`. -/
theorem ofVals_ofDigits (B : Nat) :
    ∀ l : List Int, (∀ c ∈ l, 0 ≤ get_value c) →
      ofVals (B : Int) l =
        (((Nat.ofDigits B (l.map fun c => (get_value c).toNat) : Nat)) : Int)
  | [], _ => by simp [ofVals, Nat.ofDigits]
  | c :: cs, h => by
    rw [ofVals, List.map_cons, Nat.ofDigits_cons,
      ofVals_ofDigits B cs (fun x hx => h x (List.mem_cons_of_mem c hx))]
    push_cast
    rw [Int.toNat_of_nonneg (h c (List.mem_cons_self c cs))]

/-- Formatting the evaluated value of a canonical digit string (no leading
zero) reproduces the string, lowercased. -/
theorem fmt_roundtrip (B : Nat) (hB : 2 ≤ B) (ds : List Int) (hne : ds ≠ [])
    (hv : ∀ c ∈ ds, 0 ≤ get_value c ∧ (get_value c).toNat < B ∧
      fmt.valChar ((get_value c).toNat) = tolowercase c)
    (hlz : noLeadZero ds) :
    fmt B (ofVals (B : Int) ds.reverse).toNat = ds.map tolowercase := by
  cases ds with
  | nil => exact absurd rfl hne
  | cons a l =>
    have hofv : ofVals (B : Int) (a :: l).reverse =
        (((Nat.ofDigits B (((a :: l).map fun c => (get_value c).toNat).reverse) : Nat)) : Int) := by
      rw [ofVals_ofDigits B (a :: l).reverse
        (fun x hx => (hv x (List.mem_reverse.mp hx)).1), List.map_reverse]
    -- if the head digit's value is zero, the head character is '0'
    have hzero_head : (get_value a).toNat = 0 → a = 48 := by
      intro hz
      have h48 := (hv a (List.mem_cons_self a l)).2.2
      rw [hz] at h48
      refine tolowercase_eq_48 (h48.symm.trans ?_)
      decide
    rw [hofv, Int.toNat_natCast]
    by_cases hn : Nat.ofDigits B (((a :: l).map fun c => (get_value c).toNat).reverse) = 0
    · -- value zero: by canonicity the lexeme digit part is exactly "0"
      have hd0 : ∀ v ∈ ((a :: l).map fun c => (get_value c).toNat).reverse, v = 0 :=
        Nat.digits_zero_of_eq_zero (by omega) hn
      have ha : a = 48 := by
        refine hzero_head (hd0 _ (List.mem_reverse.mpr ?_))
        exact List.mem_map_of_mem _ (List.mem_cons_self a l)
      rcases hlz with hlz | hlz
      · rw [List.headD_cons] at hlz
        exact absurd ha hlz
      · injection hlz with h1 h2
        subst h2
        subst ha
        rw [hn]
        have hf : fmt B 0 = [48] := by
          rw [fmt]
          exact if_pos rfl
        have hm : List.map tolowercase [(48 : Int)] = [48] := by decide
        rw [hf, hm]
    · rw [fmt, if_neg hn,
        Nat.digits_ofDigits B (by omega) _
          (fun v hvv => by
            obtain ⟨c, hc, rfl⟩ := List.mem_map.mp (List.mem_reverse.mp hvv)
            exact (hv c hc).2.1)
          (fun hne2 => by
            simp only [List.getLast_reverse, List.map_cons, List.head_cons]
            intro hz
            have ha := hzero_head hz
            rcases hlz with hlz | hlz
            · rw [List.headD_cons] at hlz
              exact absurd ha hlz
            · injection hlz with h1 h2
              subst h2
              refine hn ?_
              subst ha
              have h480 : (get_value 48).toNat = 0 := by decide
              simp [h480, Nat.ofDigits_cons, Nat.ofDigits_nil]),
        List.reverse_reverse]
      rw [show ((a :: l).map fun c => (get_value c).toNat).map fmt.valChar =
          (a :: l).map (fun c => fmt.valChar ((get_value c).toNat)) from by
        rw [List.map_map]; rfl]
      exact List.map_congr_left fun c hc => (hv c hc).2.2

/-- `eval` computes the little-endian value of the reversed string. -/
theorem eval_eq_ofVals {l : List Int} (h0 : (0 : Int) ∉ l) (b : Int) :
    eval l b = ofVals b l.reverse := by
  rw [eval, cstr_eq_self h0, evalGo_eq]
  ring

/-- A binary digit character is a valid, correctly-rendered digit value. -/
theorem digit_ok_bin {c : Int} (h : is_bindigit c = true) :
    0 ≤ get_value c ∧ (get_value c).toNat < 2 ∧
      fmt.valChar ((get_value c).toNat) = tolowercase c := by
  simp only [is_bindigit, Bool.or_eq_true, decide_eq_true_eq] at h
  rcases h with h | h <;> subst h <;> exact ⟨by decide, by decide, by decide⟩

/-- An octal digit character is a valid, correctly-rendered digit value. -/
theorem digit_ok_oct {c : Int} (h : is_octdigit c = true) :
    0 ≤ get_value c ∧ (get_value c).toNat < 8 ∧
      fmt.valChar ((get_value c).toNat) = tolowercase c := by
  simp only [is_octdigit, Bool.and_eq_true] at h
  have hd := h.1
  have hb : 48 ≤ c ∧ c ≤ 55 := by
    have := h.2
    simp only [is_digit, Bool.and_eq_true, decide_eq_true_eq, Bool.not_eq_true',
      decide_eq_false_iff_not] at hd this
    omega
  refine ⟨?_, ?_, valChar_digit hd⟩ <;> rw [get_value_digit hd] <;> omega

/-- A decimal digit character is a valid, correctly-rendered digit value. -/
theorem digit_ok_dec {c : Int} (h : is_decdigit c = true) :
    0 ≤ get_value c ∧ (get_value c).toNat < 10 ∧
      fmt.valChar ((get_value c).toNat) = tolowercase c := by
  have hb : 48 ≤ c ∧ c ≤ 57 := by
    simp only [is_decdigit, is_digit, Bool.and_eq_true, decide_eq_true_eq] at h
    omega
  refine ⟨?_, ?_, valChar_digit h⟩ <;> rw [get_value_digit h] <;> omega

/-- A hexadecimal digit character is a valid, correctly-rendered digit
value. -/
theorem digit_ok_hex {c : Int} (h : is_hexdigit c = true) :
    0 ≤ get_value c ∧ (get_value c).toNat < 16 ∧
      fmt.valChar ((get_value c).toNat) = tolowercase c := by
  simp only [is_hexdigit, Bool.or_eq_true, Bool.and_eq_true, decide_eq_true_eq] at h
  rcases h with h | h
  · have hb : 48 ≤ c ∧ c ≤ 57 := by
      simp only [is_digit, Bool.and_eq_true, decide_eq_true_eq] at h
      omega
    refine ⟨?_, ?_, valChar_digit (by simp [is_digit]; omega)⟩ <;>
      rw [get_value_digit (by simp [is_digit]; omega)] <;> omega
  · refine ⟨?_, ?_, valChar_hexletter h⟩ <;> rw [get_value_hexletter h] <;> omega

/-- Decimal digits and the decimal suffix are disjoint classes. -/
theorem dec_disj : ∀ c : Int, is_decdigit c = true → is_decsym c = false := by
  intro c h
  simp only [is_decdigit, is_digit, Bool.and_eq_true, decide_eq_true_eq] at h
  simp only [is_decsym, decide_eq_false_iff_not]
  rw [tolowercase_eq_self (by omega)]
  omega

/-- `getLastD` of a nonempty list ignores the default. -/
theorem getLastD_indep : ∀ {l : List Int}, l ≠ [] → ∀ d₁ d₂ : Int,
    l.getLastD d₁ = l.getLastD d₂
  | [], h => absurd rfl h
  | [_], _ => fun _ _ => rfl
  | a :: b :: m, _ => fun d₁ d₂ => by
    rw [List.getLastD_cons d₁ a (b :: m), List.getLastD_cons d₂ a (b :: m)]

/-- Structure of a `specNumTail` word: everything but the last character is
in the repeatable class, and the last character is in the closing class. -/
theorem specNumTail_structure (dP sP : Int → Bool) :
    ∀ l, specNumTail dP sP l = true →
      l ≠ [] ∧ (∀ c ∈ l.dropLast, dP c = true) ∧ sP (l.getLastD 0) = true
  | [] => by simp [specNumTail]
  | [f] => fun h => by
    simp only [specNumTail] at h
    exact ⟨by simp, by simp, h⟩
  | c :: d :: ds => fun h => by
    simp only [specNumTail, Bool.and_eq_true] at h
    obtain ⟨h1, h2⟩ := h
    obtain ⟨hne, hall, hlast⟩ := specNumTail_structure dP sP (d :: ds) h2
    refine ⟨by simp, ?_, ?_⟩
    · intro x hx
      rw [List.dropLast_cons₂, List.mem_cons] at hx
      rcases hx with rfl | hx
      · exact h1
      · exact hall x hx
    · rw [List.getLastD_cons 0 c (d :: ds), getLastD_indep hne c 0]
      exact hlast

/-- Structure of a `specDecTail` word, split on whether it carries the
optional suffix. -/
theorem specDecTail_structure :
    ∀ l, specDecTail l = true →
      (is_decsym (l.getLastD 0) = true → l.dropLast.all is_decdigit = true) ∧
      (is_decsym (l.getLastD 0) = false → l.all is_decdigit = true)
  | [] => fun _ => ⟨fun _ => by simp, fun _ => by simp⟩
  | [f] => fun h => by
    simp only [specDecTail, Bool.or_eq_true] at h
    constructor
    · intro _
      simp
    · intro hs
      rcases h with h | h
      · simp [h]
      · rw [show [f].getLastD 0 = f from rfl, h] at hs
        cases hs
  | c :: d :: ds => fun h => by
    simp only [specDecTail, Bool.and_eq_true] at h
    obtain ⟨h1, h2⟩ := h
    obtain ⟨ih1, ih2⟩ := specDecTail_structure (d :: ds) h2
    have hL : (c :: d :: ds).getLastD 0 = (d :: ds).getLastD 0 := by
      rw [List.getLastD_cons 0 c (d :: ds), getLastD_indep (by simp) c 0]
    constructor
    · intro hs
      rw [hL] at hs
      rw [List.dropLast_cons₂, List.all_cons, ih1 hs, h1]
      rfl
    · intro hs
      rw [hL] at hs
      rw [List.all_cons, ih2 hs, h1]
      rfl

/-- Round-trip core for the mandatory-suffix numeral grammars: formatting the
evaluated digit part reproduces it (lowercased) when it has no leading
zero. -/
theorem roundtrip_numeral (B : Nat) (hB : 2 ≤ B) (dP sP : Int → Bool)
    (hok : ∀ c, dP c = true → 0 ≤ get_value c ∧ (get_value c).toNat < B ∧
      fmt.valChar ((get_value c).toNat) = tolowercase c)
    (c : Int) (cs : List Int) (h0 : (0 : Int) ∉ c :: cs)
    (hc : dP c = true) (htail : specNumTail dP sP cs = true)
    (hlz : noLeadZero (c :: cs).dropLast) :
    fmt B (eval (c :: cs).dropLast (B : Int)).toNat =
      (c :: cs).dropLast.map tolowercase := by
  obtain ⟨hcs, hall, _⟩ := specNumTail_structure dP sP cs htail
  have hdl : (c :: cs).dropLast = c :: cs.dropLast := by
    cases cs with
    | nil => exact absurd rfl hcs
    | cons d ds => rfl
  have h0' : (0 : Int) ∉ (c :: cs).dropLast :=
    fun hx => h0 (List.dropLast_subset _ hx)
  rw [eval_eq_ofVals h0' (B : Int), hdl]
  rw [hdl] at hlz
  refine fmt_roundtrip B hB (c :: cs.dropLast) (by simp) ?_ hlz
  intro x hx
  rw [List.mem_cons] at hx
  rcases hx with rfl | hx
  · exact hok x hc
  · exact hok x (hall x hx)

/-- **C2** (code bug).  The lexeme-buffer overflow guard is off by one: the
first 255 pushes from a flushed token write only in-bounds indices and the
257th push is rejected by the guard, but the 256th push — still accepted,
because the guard only tests `top == 256` — stores its NUL terminator at
index 256, one past the end of `char lexeme[256]`. -/
theorem C2_push_write_out_of_bounds :
    (pushRun 255 flush_top).map (fun p => (p.1, p.2.all (· < lexemeCapacity))) =
      some (255, true) ∧
    push_to_lexeme 255 = some (256, [255, 256]) ∧
    ¬ ((256 : Int) < lexemeCapacity) ∧
    (pushRun 256 flush_top).map (fun p => decide (lexemeCapacity ∈ p.2)) =
      some true ∧
    pushRun 257 flush_top = none := by
  refine ⟨by decide, by decide, by decide, by decide, by decide⟩

/-- **C10** (code bug).  The pop-underflow guard tests `top == -1`, so the
*first* pop from a freshly flushed token (`top == 0`) passes the guard,
decrements `top` to `-1` and reads/overwrites the lexeme array at index `-1`,
below the array; only the second pop trips the guard. -/
theorem C10_pop_underflow_guard_off_by_one :
    pop_from_lexeme flush_top = some (-1, [-1]) ∧ ((-1 : Int) < 0) ∧
    pop_from_lexeme (-1) = none := by
  refine ⟨by decide, by decide, by decide⟩

/-- **C6** (confirmed).  On every digit string valid in base 2, 8, 10 or 16,
the implemented evaluator (last-character-backwards sum of `digit * place`
with `place` multiplied by the base each step, digits looked up in the
alphabet `0123456789abcdef` case-insensitively) returns the same value as the
reference most-significant-digit-first accumulation
`value = value * base + digit`. -/
theorem C6_eval_equals_msd_reference (s : List Int) (b : Int)
    (hb : b = 2 ∨ b = 8 ∨ b = 10 ∨ b = 16)
    (hs : ∀ c ∈ s, 0 ≤ get_value c ∧ get_value c < b) :
    eval s b = msd_eval b s := by
  have h0 : (0 : Int) ∉ s := by
    intro h
    have h1 := (hs 0 h).1
    have h2 : get_value 0 = -1 := by decide
    omega
  exact eval_eq_msd h0 b

/-- Witness for C6 at the lexeme digits `"101"` in base 2. -/
theorem C6_witness : eval [49, 48, 49] 2 = msd_eval 2 [49, 48, 49] :=
  C6_eval_equals_msd_reference [49, 48, 49] 2 (Or.inl rfl) (by decide)

/-- **C3** (counterexample).  The round-trip claim fails as stated: the
decimal lexeme `"00"` is accepted by `is_dec` and evaluates to 0, but
formatting 0 in base 10 yields `"0"`, not `"00"`; and the hexadecimal lexeme
`"ABh"` is accepted by `is_hex`, but formatting its value 171 yields `"ab"`,
not the original uppercase digits `"AB"`. -/
theorem C3_counterexample :
    is_dec [48, 48] = true ∧ eval_dec [48, 48] = 0 ∧
    fmt 10 (eval_dec [48, 48]).toNat = [48] ∧ ([48] : List Int) ≠ [48, 48] ∧
    is_hex [65, 66, 104] = true ∧ eval_hex [65, 66, 104] = 171 ∧
    fmt 16 (eval_hex [65, 66, 104]).toNat = [97, 98] ∧
    ([97, 98] : List Int) ≠ [65, 66] := by
  refine ⟨by decide, by decide, ?_, by decide, by decide, by decide, ?_, by decide⟩
  · rw [show (eval_dec [48, 48]).toNat = 0 from by decide, fmt, if_pos rfl]
  · rw [show (eval_hex [65, 66, 104]).toNat = 171 from by decide, fmt,
      if_neg (by omega)]
    rw [show Nat.digits 16 171 = [11, 10] from by
      rw [Nat.digits_def' (by norm_num : (1 : ℕ) < 16) (by norm_num : (0 : ℕ) < 171),
        Nat.digits_def' (by norm_num : (1 : ℕ) < 16) (by norm_num : (0 : ℕ) < 10)]
      norm_num]
    decide

/-- **C3** (amended).  For every lexeme accepted by one of the four integer
recognizers whose digit part is canonical (no leading zero), re-formatting
the evaluated value in that base reproduces the digit part of the lexeme
lowercased, the base suffix being stripped (for decimals, stripped when
present). -/
theorem C3_amended_roundtrip (s : List Int) (h0 : (0 : Int) ∉ s) :
    (is_bin s = true → noLeadZero s.dropLast →
      fmt 2 (eval_bin s).toNat = s.dropLast.map tolowercase) ∧
    (is_oct s = true → noLeadZero s.dropLast →
      fmt 8 (eval_oct s).toNat = s.dropLast.map tolowercase) ∧
    (is_dec s = true → noLeadZero (stripDec s) →
      fmt 10 (eval_dec s).toNat = (stripDec s).map tolowercase) ∧
    (is_hex s = true → noLeadZero s.dropLast →
      fmt 16 (eval_hex s).toNat = s.dropLast.map tolowercase) := by
  refine ⟨?_, ?_, ?_, ?_⟩
  · intro h hlz
    rw [is_bin_eq_spec h0] at h
    cases s with
    | nil => simp [specBin] at h
    | cons c cs =>
      simp only [specBin, Bool.and_eq_true] at h
      rw [show eval_bin (c :: cs) = eval (c :: cs).dropLast 2 from by
        rw [eval_bin, cstr_eq_self h0]]
      exact roundtrip_numeral 2 (by omega) _ _ (fun x hx => digit_ok_bin hx)
        c cs h0 h.1 h.2 hlz
  · intro h hlz
    rw [is_oct_eq_spec h0] at h
    cases s with
    | nil => simp [specOct] at h
    | cons c cs =>
      simp only [specOct, Bool.and_eq_true] at h
      rw [show eval_oct (c :: cs) = eval (c :: cs).dropLast 8 from by
        rw [eval_oct, cstr_eq_self h0]]
      exact roundtrip_numeral 8 (by omega) _ _ (fun x hx => digit_ok_oct hx)
        c cs h0 h.1 h.2 hlz
  · intro h hlz
    rw [is_dec_eq_spec h0] at h
    cases s with
    | nil => simp [specDec] at h
    | cons c cs =>
      simp only [specDec, Bool.and_eq_true] at h
      obtain ⟨hc, htail⟩ := h
      by_cases hsym : tolowercase ((c :: cs).getLastD 0) = 100
      · -- the optional suffix is present and is stripped
        have hstrip : stripDec (c :: cs) = (c :: cs).dropLast := by
          rw [stripDec,
            if_pos (by simp only [is_decsym, decide_eq_true_eq]; exact hsym)]
        cases cs with
        | nil =>
          exfalso
          have hdj := dec_disj c hc
          rw [show ([c] : List Int).getLastD 0 = c from rfl] at hsym
          simp only [is_decsym, decide_eq_false_iff_not] at hdj
          exact hdj hsym
        | cons d ds =>
          have hL : ((c :: d :: ds) : List Int).getLastD 0 = (d :: ds).getLastD 0 := by
            rw [List.getLastD_cons 0 c (d :: ds), getLastD_indep (by simp) c 0]
          have hall := (specDecTail_structure (d :: ds) htail).1
            (by simp only [is_decsym, decide_eq_true_eq]; rw [← hL]; exact hsym)
          rw [List.all_eq_true] at hall
          rw [show eval_dec (c :: d :: ds) = eval (c :: d :: ds).dropLast 10 from by
            rw [eval_dec, cstr_eq_self h0, if_pos hsym], hstrip]
          rw [hstrip, List.dropLast_cons₂] at hlz
          have h0' : (0 : Int) ∉ (c :: d :: ds).dropLast :=
            fun hx => h0 (List.dropLast_subset _ hx)
          rw [eval_eq_ofVals h0' 10, List.dropLast_cons₂]
          refine fmt_roundtrip 10 (by omega) _ (by simp) ?_ hlz
          intro x hx
          rw [List.mem_cons] at hx
          rcases hx with rfl | hx
          · exact digit_ok_dec hc
          · exact digit_ok_dec (hall x hx)
      · -- no suffix: the whole lexeme is the digit part
        have hstrip : stripDec (c :: cs) = c :: cs := by
          rw [stripDec,
            if_neg (by simp only [is_decsym, decide_eq_true_eq]; exact hsym)]
        have hall : ∀ x ∈ cs, is_decdigit x = true := by
          cases cs with
          | nil => intro x hx; cases hx
          | cons d ds =>
            have hL : ((c :: d :: ds) : List Int).getLastD 0 = (d :: ds).getLastD 0 := by
              rw [List.getLastD_cons 0 c (d :: ds), getLastD_indep (by simp) c 0]
            have h2 := (specDecTail_structure (d :: ds) htail).2
              (by simp only [is_decsym, decide_eq_false_iff_not]; rw [← hL]; exact hsym)
            rw [List.all_eq_true] at h2
            exact h2
        rw [show eval_dec (c :: cs) = eval (c :: cs) 10 from by
          rw [eval_dec, cstr_eq_self h0, if_neg hsym], hstrip]
        rw [hstrip] at hlz
        rw [eval_eq_ofVals h0 10]
        refine fmt_roundtrip 10 (by omega) _ (by simp) ?_ hlz
        intro x hx
        rw [List.mem_cons] at hx
        rcases hx with rfl | hx
        · exact digit_ok_dec hc
        · exact digit_ok_dec (hall x hx)
  · intro h hlz
    rw [is_hex_eq_spec h0] at h
    cases s with
    | nil => simp [specHex] at h
    | cons c cs =>
      simp only [specHex, Bool.and_eq_true] at h
      rw [show eval_hex (c :: cs) = eval (c :: cs).dropLast 16 from by
        rw [eval_hex, cstr_eq_self h0]]
      exact roundtrip_numeral 16 (by omega) _ _ (fun x hx => digit_ok_hex hx)
        c cs h0 h.1 h.2 hlz

/-- Witness for the amended C3 at the binary lexeme `"101b"`. -/
theorem C3_amended_witness :
    fmt 2 (eval_bin [49, 48, 49, 98]).toNat = [49, 48, 49] := by
  have h := (C3_amended_roundtrip [49, 48, 49, 98] (by decide)).1
    (by decide) (Or.inl (by decide))
  rw [show List.dropLast [49, 48, 49, 98] = ([49, 48, 49] : List Int) from by decide,
    show List.map tolowercase [49, 48, 49] = ([49, 48, 49] : List Int) from by decide] at h
  exact h

/-- Fuel monotonicity: a scan that does not run out of fuel returns the same
outcome under any larger fuel. -/
theorem scan_mono : ∀ (n : Nat) {m : Nat}, n ≤ m → ∀ st tok s,
    scanLoopF n st tok s ≠ .oof → scanLoopF m st tok s = scanLoopF n st tok s := by
  intro n
  induction n with
  | zero =>
    intro m _ st tok s h
    exact absurd rfl h
  | succ n ih =>
    intro m hm st tok s h
    cases m with
    | zero => omega
    | succ m =>
      have hm' : n ≤ m := Nat.le_of_succ_le_succ hm
      cases st
      case s0 => simp only [scanLoopF]
      case s1 =>
        simp only [scanLoopF] at h ⊢
        split_ifs at h ⊢ <;> exact ih hm' _ _ _ h
      case s2 =>
        simp only [scanLoopF] at h ⊢
        split_ifs at h ⊢
        · cases hp : pushT tok (cur s) with
          | none => simp only [hp]
          | some tok' =>
            simp only [hp] at h ⊢
            exact ih hm' _ _ _ h
        · exact ih hm' _ _ _ h
      case s3 =>
        simp only [scanLoopF] at h ⊢
        split_ifs at h ⊢ <;> exact ih hm' _ _ _ h
      case s4 =>
        simp only [scanLoopF] at h ⊢
        split_ifs at h ⊢ <;> exact ih hm' _ _ _ h
      case s5 =>
        simp only [scanLoopF] at h ⊢
        split_ifs at h ⊢
        · cases hp : pushT tok (cur s) with
          | none => simp only [hp]
          | some tok' =>
            simp only [hp] at h ⊢
            exact ih hm' _ _ _ h
        · exact ih hm' _ _ _ h
      case s5_1 =>
        simp only [scanLoopF] at h ⊢
        split_ifs at h ⊢
        · cases hp : pushT tok (cur s) with
          | none => simp only [hp]
          | some tok' =>
            simp only [hp] at h ⊢
            exact ih hm' _ _ _ h
        · exact ih hm' _ _ _ h
        · exact ih hm' _ _ _ h
        · exact ih hm' _ _ _ h
        · cases hp : pushT tok (cur s) with
          | none => simp only [hp]
          | some tok' =>
            simp only [hp] at h ⊢
            exact ih hm' _ _ _ h
      case s6 =>
        simp only [scanLoopF] at h ⊢
        split_ifs at h ⊢
        · cases hp : pushT tok (cur s) with
          | none => simp only [hp]
          | some tok' =>
            simp only [hp] at h ⊢
            exact ih hm' _ _ _ h
        · exact ih hm' _ _ _ h
      case s6_1 =>
        simp only [scanLoopF] at h ⊢
        split_ifs at h ⊢
        · cases hp : pushT tok (cur s) with
          | none => simp only [hp]
          | some tok' =>
            simp only [hp] at h ⊢
            exact ih hm' _ _ _ h
        · exact ih hm' _ _ _ h
        · exact ih hm' _ _ _ h
        · exact ih hm' _ _ _ h
        · cases hp : pushT tok (cur s) with
          | none => simp only [hp]
          | some tok' =>
            simp only [hp] at h ⊢
            exact ih hm' _ _ _ h
      case s7 =>
        simp only [scanLoopF] at h ⊢
        split_ifs at h ⊢ <;> exact ih hm' _ _ _ h
      case s8 =>
        simp only [scanLoopF] at h ⊢
        split_ifs at h ⊢
        · exact ih hm' _ _ _ h
        · exact ih hm' _ _ _ h
        · exact ih hm' _ _ _ h
        · exact ih hm' _ _ _ h
        · exact ih hm' _ _ _ h
        · exact ih hm' _ _ _ h
        · exact ih hm' _ _ _ h
        · cases hp : pushT tok (cur s) with
          | none => simp only [hp]
          | some tok' =>
            simp only [hp] at h ⊢
            exact ih hm' _ _ _ h

/-- Advancing never lengthens the stream. -/
theorem adv_le (s : List Int) : (adv s).length ≤ s.length := by
  cases s <;> simp [adv]

/-- Advancing a nonempty stream shortens it. -/
theorem adv_lt {s : List Int} (h : s ≠ []) : (adv s).length < s.length := by
  cases s with
  | nil => exact absurd rfl h
  | cons c cs => simp [adv]

/-- If the register holds an ordinary character, the stream is nonempty. -/
theorem cur_ne_nil {s : List Int} (h : cur s ≠ -1) : s ≠ [] := by
  cases s with
  | nil => exact absurd rfl h
  | cons c cs => simp

/-- A character in none of the special classes is not `special8`. -/
theorem special8_false {c : Int} (h1 : ¬is_whitespace c = true)
    (h2 : ¬is_symbol c = true) (h3 : ¬is_eol c = true) (h4 : ¬is_eof c = true)
    (h5 : ¬is_sqmark c = true) (h6 : ¬is_dqmark c = true)
    (h7 : ¬is_comment_initor c = true) : special8 c = false := by
  simp only [Bool.not_eq_true] at h1 h2 h3 h4 h5 h6 h7
  simp [special8, h1, h2, h3, h4, h5, h6, h7]

/-- Consumption facts for the scanner: a finished scan never lengthens the
stream; from the entry state a token without the `eof` flag consumes at least
one character; states 2/3/5/6 (which capture their guard character) always
consume; state 4 stamps the `eof` flag; state 0 returns its arguments. -/
theorem scan_consume : ∀ (n : Nat) (st : SState) (tok : RawTok) (s : List Int)
    (r : RawTok) (rest : List Int),
    scanLoopF n st tok s = .ok (r, rest) →
    rest.length ≤ s.length ∧
    (st = .s0 → r = tok ∧ rest = s) ∧
    (st = .s1 → r.eof = false → rest.length < s.length) ∧
    (st = .s2 → rest.length < s.length) ∧
    (st = .s3 → rest.length < s.length) ∧
    (st = .s4 → r.eof = true) ∧
    (st = .s5 → rest.length < s.length) ∧
    (st = .s6 → rest.length < s.length) ∧
    (st = .s7 → r.eof = false → rest.length < s.length) ∧
    (st = .s8 → special8 (cur s) = false → rest.length < s.length) := by
  intro n
  induction n with
  | zero =>
    intro st tok s r rest h
    simp [scanLoopF] at h
  | succ n ih =>
    intro st tok s r rest h
    cases st
    case s0 =>
      simp only [scanLoopF, Res.ok.injEq, Prod.mk.injEq] at h
      obtain ⟨h1, h2⟩ := h
      subst h1
      subst h2
      exact ⟨le_rfl, fun _ => ⟨rfl, rfl⟩, nofun, nofun, nofun, nofun, nofun,
        nofun, nofun, nofun⟩
    case s1 =>
      simp only [scanLoopF] at h
      split_ifs at h with h1 h2 h3 h4 h5 h6 h7
      · -- whitespace: skip and consume
        obtain ⟨Hle, _, _, _, _, _, _, _, _, _⟩ := ih _ _ _ _ _ h
        have hs : s ≠ [] := cur_ne_nil (by
          simp only [is_whitespace, Bool.or_eq_true, decide_eq_true_eq] at h1
          omega)
        refine ⟨Hle.trans (adv_le s), nofun, ?_, nofun, nofun, nofun, nofun,
          nofun, nofun, nofun⟩
        intro _ _
        exact lt_of_le_of_lt Hle (adv_lt hs)
      · -- symbol
        obtain ⟨Hle, _, _, H2, _, _, _, _, _, _⟩ := ih _ _ _ _ _ h
        exact ⟨Hle, nofun, fun _ _ => H2 rfl, nofun, nofun, nofun, nofun,
          nofun, nofun, nofun⟩
      · -- end-of-line
        obtain ⟨Hle, _, _, _, H3, _, _, _, _, _⟩ := ih _ _ _ _ _ h
        exact ⟨Hle, nofun, fun _ _ => H3 rfl, nofun, nofun, nofun, nofun,
          nofun, nofun, nofun⟩
      · -- end-of-input: the result carries the eof flag
        obtain ⟨Hle, _, _, _, _, H4, _, _, _, _⟩ := ih _ _ _ _ _ h
        refine ⟨Hle, nofun, ?_, nofun, nofun, nofun, nofun, nofun, nofun, nofun⟩
        intro _ heof
        have := H4 rfl
        rw [heof] at this
        cases this
      · -- single quote
        obtain ⟨Hle, _, _, _, _, _, H5, _, _, _⟩ := ih _ _ _ _ _ h
        exact ⟨Hle, nofun, fun _ _ => H5 rfl, nofun, nofun, nofun, nofun,
          nofun, nofun, nofun⟩
      · -- double quote
        obtain ⟨Hle, _, _, _, _, _, _, H6, _, _⟩ := ih _ _ _ _ _ h
        exact ⟨Hle, nofun, fun _ _ => H6 rfl, nofun, nofun, nofun, nofun,
          nofun, nofun, nofun⟩
      · -- comment initiator
        obtain ⟨Hle, _, _, _, _, _, _, _, H7, _⟩ := ih _ _ _ _ _ h
        exact ⟨Hle, nofun, fun _ heof => H7 rfl heof, nofun, nofun, nofun,
          nofun, nofun, nofun, nofun⟩
      · -- anything else: generic capture
        obtain ⟨Hle, _, _, _, _, _, _, _, _, H8⟩ := ih _ _ _ _ _ h
        exact ⟨Hle, nofun, fun _ _ =>
          H8 rfl (special8_false h1 h2 h3 h4 h5 h6 h7), nofun, nofun, nofun,
          nofun, nofun, nofun, nofun⟩
    case s2 =>
      simp only [scanLoopF] at h
      split_ifs at h with h1
      · cases hp : pushT tok (cur s) with
        | none => rw [hp] at h; cases h
        | some tok' =>
          rw [hp] at h
          obtain ⟨Hle, H0, _, _, _, _, _, _, _, _⟩ := ih _ _ _ _ _ h
          have hs : s ≠ [] := cur_ne_nil (by rw [h1]; decide)
          have hrest : rest = adv s := (H0 rfl).2
          refine ⟨?_, nofun, nofun, ?_, nofun, nofun, nofun, nofun, nofun, nofun⟩
          · rw [hrest]
            exact adv_le s
          · intro _
            rw [hrest]
            exact adv_lt hs
      · -- guard failed: the C loop never terminates (no `ok` outcome)
        obtain ⟨Hle, _, _, H2, _, _, _, _, _, _⟩ := ih _ _ _ _ _ h
        exact ⟨Hle, nofun, nofun, fun _ => H2 rfl, nofun, nofun, nofun, nofun,
          nofun, nofun⟩
    case s3 =>
      simp only [scanLoopF] at h
      split_ifs at h with h1
      · obtain ⟨Hle, H0, _, _, _, _, _, _, _, _⟩ := ih _ _ _ _ _ h
        have hs : s ≠ [] := cur_ne_nil (by
          simp only [is_eol, decide_eq_true_eq] at h1
          omega)
        have hrest : rest = adv s := (H0 rfl).2
        refine ⟨?_, nofun, nofun, nofun, ?_, nofun, nofun, nofun, nofun, nofun⟩
        · rw [hrest]
          exact adv_le s
        · intro _
          rw [hrest]
          exact adv_lt hs
      · obtain ⟨Hle, _, _, _, H3, _, _, _, _, _⟩ := ih _ _ _ _ _ h
        exact ⟨Hle, nofun, nofun, nofun, fun _ => H3 rfl, nofun, nofun, nofun,
          nofun, nofun⟩
    case s4 =>
      simp only [scanLoopF] at h
      split_ifs at h with h1
      · obtain ⟨Hle, H0, _, _, _, _, _, _, _, _⟩ := ih _ _ _ _ _ h
        have hr : r = { tok with eof := true } := (H0 rfl).1
        have hrest : rest = adv s := (H0 rfl).2
        refine ⟨?_, nofun, nofun, nofun, nofun, ?_, nofun, nofun, nofun, nofun⟩
        · rw [hrest]
          exact adv_le s
        · intro _
          rw [hr]
      · obtain ⟨Hle, _, _, _, _, H4, _, _, _, _⟩ := ih _ _ _ _ _ h
        exact ⟨Hle, nofun, nofun, nofun, nofun, fun _ => H4 rfl, nofun, nofun,
          nofun, nofun⟩
    case s5 =>
      simp only [scanLoopF] at h
      split_ifs at h with h1
      · cases hp : pushT tok (cur s) with
        | none => rw [hp] at h; cases h
        | some tok' =>
          rw [hp] at h
          obtain ⟨Hle, _, _, _, _, _, _, _, _, _⟩ := ih _ _ _ _ _ h
          have hs : s ≠ [] := cur_ne_nil (by
            simp only [is_sqmark, decide_eq_true_eq] at h1
            omega)
          refine ⟨Hle.trans (adv_le s), nofun, nofun, nofun, nofun, nofun, ?_,
            nofun, nofun, nofun⟩
          intro _
          exact lt_of_le_of_lt Hle (adv_lt hs)
      · obtain ⟨Hle, _, _, _, _, _, H5, _, _, _⟩ := ih _ _ _ _ _ h
        exact ⟨Hle, nofun, nofun, nofun, nofun, nofun, fun _ => H5 rfl, nofun,
          nofun, nofun⟩
    case s5_1 =>
      simp only [scanLoopF] at h
      split_ifs at h with h1 h2 h3 h4
      · cases hp : pushT tok (cur s) with
        | none => rw [hp] at h; cases h
        | some tok' =>
          rw [hp] at h
          obtain ⟨Hle, _, _, _, _, _, _, _, _, _⟩ := ih _ _ _ _ _ h
          exact ⟨(Hle.trans (adv_le s)), nofun, nofun, nofun, nofun, nofun,
            nofun, nofun, nofun, nofun⟩
      · obtain ⟨Hle, H0, _, _, _, _, _, _, _, _⟩ := ih _ _ _ _ _ h
        exact ⟨(H0 rfl).2 ▸ le_rfl, nofun, nofun, nofun, nofun, nofun, nofun,
          nofun, nofun, nofun⟩
      · obtain ⟨Hle, H0, _, _, _, _, _, _, _, _⟩ := ih _ _ _ _ _ h
        exact ⟨(H0 rfl).2 ▸ le_rfl, nofun, nofun, nofun, nofun, nofun, nofun,
          nofun, nofun, nofun⟩
      · obtain ⟨Hle, H0, _, _, _, _, _, _, _, _⟩ := ih _ _ _ _ _ h
        exact ⟨(H0 rfl).2 ▸ le_rfl, nofun, nofun, nofun, nofun, nofun, nofun,
          nofun, nofun, nofun⟩
      · cases hp : pushT tok (cur s) with
        | none => rw [hp] at h; cases h
        | some tok' =>
          rw [hp] at h
          obtain ⟨Hle, _, _, _, _, _, _, _, _, _⟩ := ih _ _ _ _ _ h
          exact ⟨(Hle.trans (adv_le s)), nofun, nofun, nofun, nofun, nofun,
            nofun, nofun, nofun, nofun⟩
    case s6 =>
      simp only [scanLoopF] at h
      split_ifs at h with h1
      · cases hp : pushT tok (cur s) with
        | none => rw [hp] at h; cases h
        | some tok' =>
          rw [hp] at h
          obtain ⟨Hle, _, _, _, _, _, _, _, _, _⟩ := ih _ _ _ _ _ h
          have hs : s ≠ [] := cur_ne_nil (by
            simp only [is_dqmark, decide_eq_true_eq] at h1
            omega)
          refine ⟨Hle.trans (adv_le s), nofun, nofun, nofun, nofun, nofun,
            nofun, ?_, nofun, nofun⟩
          intro _
          exact lt_of_le_of_lt Hle (adv_lt hs)
      · obtain ⟨Hle, _, _, _, _, _, _, H6, _, _⟩ := ih _ _ _ _ _ h
        exact ⟨Hle, nofun, nofun, nofun, nofun, nofun, nofun, fun _ => H6 rfl,
          nofun, nofun⟩
    case s6_1 =>
      simp only [scanLoopF] at h
      split_ifs at h with h1 h2 h3 h4
      · cases hp : pushT tok (cur s) with
        | none => rw [hp] at h; cases h
        | some tok' =>
          rw [hp] at h
          obtain ⟨Hle, _, _, _, _, _, _, _, _, _⟩ := ih _ _ _ _ _ h
          exact ⟨(Hle.trans (adv_le s)), nofun, nofun, nofun, nofun, nofun,
            nofun, nofun, nofun, nofun⟩
      · obtain ⟨Hle, H0, _, _, _, _, _, _, _, _⟩ := ih _ _ _ _ _ h
        exact ⟨(H0 rfl).2 ▸ le_rfl, nofun, nofun, nofun, nofun, nofun, nofun,
          nofun, nofun, nofun⟩
      · obtain ⟨Hle, H0, _, _, _, _, _, _, _, _⟩ := ih _ _ _ _ _ h
        exact ⟨(H0 rfl).2 ▸ le_rfl, nofun, nofun, nofun, nofun, nofun, nofun,
          nofun, nofun, nofun⟩
      · obtain ⟨Hle, H0, _, _, _, _, _, _, _, _⟩ := ih _ _ _ _ _ h
        exact ⟨(H0 rfl).2 ▸ le_rfl, nofun, nofun, nofun, nofun, nofun, nofun,
          nofun, nofun, nofun⟩
      · cases hp : pushT tok (cur s) with
        | none => rw [hp] at h; cases h
        | some tok' =>
          rw [hp] at h
          obtain ⟨Hle, _, _, _, _, _, _, _, _, _⟩ := ih _ _ _ _ _ h
          exact ⟨(Hle.trans (adv_le s)), nofun, nofun, nofun, nofun, nofun,
            nofun, nofun, nofun, nofun⟩
    case s7 =>
      simp only [scanLoopF] at h
      split_ifs at h with h1 h2
      · obtain ⟨Hle, _, H1, _, _, _, _, _, _, _⟩ := ih _ _ _ _ _ h
        exact ⟨Hle, nofun, nofun, nofun, nofun, nofun, nofun, nofun,
          fun _ heof => H1 rfl heof, nofun⟩
      · obtain ⟨Hle, _, H1, _, _, _, _, _, _, _⟩ := ih _ _ _ _ _ h
        exact ⟨Hle, nofun, nofun, nofun, nofun, nofun, nofun, nofun,
          fun _ heof => H1 rfl heof, nofun⟩
      · -- comment body character: consumed
        obtain ⟨Hle, _, _, _, _, _, _, _, H7, _⟩ := ih _ _ _ _ _ h
        have hs : s ≠ [] := cur_ne_nil (by
          simp only [is_eof, decide_eq_true_eq] at h2
          exact h2)
        refine ⟨Hle.trans (adv_le s), nofun, nofun, nofun, nofun, nofun, nofun,
          nofun, ?_, nofun⟩
        intro _ _
        exact lt_of_le_of_lt Hle (adv_lt hs)
    case s8 =>
      simp only [scanLoopF] at h
      split_ifs at h with h1 h2 h3 h4 h5 h6 h7
      · obtain ⟨Hle, H0, _, _, _, _, _, _, _, _⟩ := ih _ _ _ _ _ h
        exact ⟨(H0 rfl).2 ▸ le_rfl, nofun, nofun, nofun, nofun, nofun, nofun,
          nofun, nofun, fun _ hsp => absurd hsp (by simp [special8, h1])⟩
      · obtain ⟨Hle, H0, _, _, _, _, _, _, _, _⟩ := ih _ _ _ _ _ h
        exact ⟨(H0 rfl).2 ▸ le_rfl, nofun, nofun, nofun, nofun, nofun, nofun,
          nofun, nofun, fun _ hsp => absurd hsp (by simp [special8, h2])⟩
      · obtain ⟨Hle, H0, _, _, _, _, _, _, _, _⟩ := ih _ _ _ _ _ h
        exact ⟨(H0 rfl).2 ▸ le_rfl, nofun, nofun, nofun, nofun, nofun, nofun,
          nofun, nofun, fun _ hsp => absurd hsp (by simp [special8, h3])⟩
      · obtain ⟨Hle, H0, _, _, _, _, _, _, _, _⟩ := ih _ _ _ _ _ h
        exact ⟨(H0 rfl).2 ▸ le_rfl, nofun, nofun, nofun, nofun, nofun, nofun,
          nofun, nofun, fun _ hsp => absurd hsp (by simp [special8, h4])⟩
      · obtain ⟨Hle, H0, _, _, _, _, _, _, _, _⟩ := ih _ _ _ _ _ h
        exact ⟨(H0 rfl).2 ▸ le_rfl, nofun, nofun, nofun, nofun, nofun, nofun,
          nofun, nofun, fun _ hsp => absurd hsp (by simp [special8, h5])⟩
      · obtain ⟨Hle, H0, _, _, _, _, _, _, _, _⟩ := ih _ _ _ _ _ h
        exact ⟨(H0 rfl).2 ▸ le_rfl, nofun, nofun, nofun, nofun, nofun, nofun,
          nofun, nofun, fun _ hsp => absurd hsp (by simp [special8, h6])⟩
      · obtain ⟨Hle, H0, _, _, _, _, _, _, _, _⟩ := ih _ _ _ _ _ h
        exact ⟨(H0 rfl).2 ▸ le_rfl, nofun, nofun, nofun, nofun, nofun, nofun,
          nofun, nofun, fun _ hsp => absurd hsp (by simp [special8, h7])⟩
      · cases hp : pushT tok (cur s) with
        | none => rw [hp] at h; cases h
        | some tok' =>
          rw [hp] at h
          obtain ⟨Hle, _, _, _, _, _, _, _, _, _⟩ := ih _ _ _ _ _ h
          have hs : s ≠ [] := cur_ne_nil (by
            simp only [is_eof, decide_eq_true_eq] at h4
            exact h4)
          refine ⟨Hle.trans (adv_le s), nofun, nofun, nofun, nofun, nofun,
            nofun, nofun, nofun, ?_⟩
          intro _ _
          exact lt_of_le_of_lt Hle (adv_lt hs)

/-- A successful push appends the character and preserves the flags. -/
theorem pushT_some {tok tok' : RawTok} {c : Int} (hp : pushT tok c = some tok') :
    tok'.lexeme = tok.lexeme ++ [c] ∧ tok'.eol = tok.eol ∧ tok'.eof = tok.eof := by
  simp only [pushT] at hp
  split_ifs at hp
  simp only [Option.some.injEq] at hp
  simp [← hp]

/-- The scanner invariant: every raw token a scan run delivers satisfies the
exactly-one-of property (eol flag, eof flag, or non-empty lexeme). -/
theorem scan_flags : ∀ (n : Nat) (st : SState) (tok : RawTok) (s : List Int)
    (r : RawTok) (rest : List Int),
    scanLoopF n st tok s = .ok (r, rest) → scanInv st tok s → rawOk r := by
  intro n
  induction n with
  | zero =>
    intro st tok s r rest h
    simp [scanLoopF] at h
  | succ n ih =>
    intro st tok s r rest h inv
    cases st
    case s0 =>
      simp only [scanLoopF, Res.ok.injEq, Prod.mk.injEq] at h
      obtain ⟨h1, _⟩ := h
      subst h1
      exact inv
    case s1 =>
      obtain ⟨he, hf, hl⟩ := inv
      simp only [scanLoopF] at h
      split_ifs at h with h1 h2 h3 h4 h5 h6 h7
      · exact ih _ _ _ _ _ h ⟨he, hf, hl⟩
      · exact ih _ _ _ _ _ h ⟨he, hf, hl⟩
      · exact ih _ _ _ _ _ h ⟨he, hf, hl⟩
      · exact ih _ _ _ _ _ h ⟨he, hf, hl⟩
      · exact ih _ _ _ _ _ h ⟨he, hf, hl⟩
      · exact ih _ _ _ _ _ h ⟨he, hf, hl⟩
      · exact ih _ _ _ _ _ h ⟨he, hf, hl⟩
      · exact ih _ _ _ _ _ h
          ⟨he, hf, fun _ => special8_false h1 h2 h3 h4 h5 h6 h7⟩
    case s2 =>
      obtain ⟨he, hf, hl⟩ := inv
      simp only [scanLoopF] at h
      split_ifs at h with h1
      · cases hp : pushT tok (cur s) with
        | none => rw [hp] at h; cases h
        | some tok' =>
          rw [hp] at h
          obtain ⟨hpl, hpe, hpf⟩ := pushT_some hp
          refine ih _ _ _ _ _ h (Or.inr (Or.inr ⟨?_, ?_, ?_⟩))
          · rw [hpe, he]
          · rw [hpf, hf]
          · rw [hpl]
            simp
      · exact ih _ _ _ _ _ h ⟨he, hf, hl⟩
    case s3 =>
      obtain ⟨he, hf, hl⟩ := inv
      simp only [scanLoopF] at h
      split_ifs at h with h1
      · exact ih _ _ _ _ _ h (Or.inl ⟨rfl, hf, hl⟩)
      · exact ih _ _ _ _ _ h ⟨he, hf, hl⟩
    case s4 =>
      obtain ⟨he, hf, hl⟩ := inv
      simp only [scanLoopF] at h
      split_ifs at h with h1
      · exact ih _ _ _ _ _ h (Or.inr (Or.inl ⟨he, rfl, hl⟩))
      · exact ih _ _ _ _ _ h ⟨he, hf, hl⟩
    case s5 =>
      obtain ⟨he, hf, hl⟩ := inv
      simp only [scanLoopF] at h
      split_ifs at h with h1
      · cases hp : pushT tok (cur s) with
        | none => rw [hp] at h; cases h
        | some tok' =>
          rw [hp] at h
          obtain ⟨hpl, hpe, hpf⟩ := pushT_some hp
          refine ih _ _ _ _ _ h ⟨?_, ?_, ?_⟩
          · rw [hpe, he]
          · rw [hpf, hf]
          · rw [hpl]
            simp
      · exact ih _ _ _ _ _ h ⟨he, hf, hl⟩
    case s5_1 =>
      obtain ⟨he, hf, hl⟩ := inv
      simp only [scanLoopF] at h
      split_ifs at h with h1 h2 h3 h4
      · cases hp : pushT tok (cur s) with
        | none => rw [hp] at h; cases h
        | some tok' =>
          rw [hp] at h
          obtain ⟨hpl, hpe, hpf⟩ := pushT_some hp
          refine ih _ _ _ _ _ h (Or.inr (Or.inr ⟨?_, ?_, ?_⟩))
          · rw [hpe, he]
          · rw [hpf, hf]
          · rw [hpl]
            simp
      · exact ih _ _ _ _ _ h (Or.inr (Or.inr ⟨he, hf, hl⟩))
      · exact ih _ _ _ _ _ h (Or.inr (Or.inr ⟨he, hf, hl⟩))
      · exact ih _ _ _ _ _ h (Or.inr (Or.inr ⟨he, hf, hl⟩))
      · cases hp : pushT tok (cur s) with
        | none => rw [hp] at h; cases h
        | some tok' =>
          rw [hp] at h
          obtain ⟨hpl, hpe, hpf⟩ := pushT_some hp
          refine ih _ _ _ _ _ h ⟨?_, ?_, ?_⟩
          · rw [hpe, he]
          · rw [hpf, hf]
          · rw [hpl]
            simp
    case s6 =>
      obtain ⟨he, hf, hl⟩ := inv
      simp only [scanLoopF] at h
      split_ifs at h with h1
      · cases hp : pushT tok (cur s) with
        | none => rw [hp] at h; cases h
        | some tok' =>
          rw [hp] at h
          obtain ⟨hpl, hpe, hpf⟩ := pushT_some hp
          refine ih _ _ _ _ _ h ⟨?_, ?_, ?_⟩
          · rw [hpe, he]
          · rw [hpf, hf]
          · rw [hpl]
            simp
      · exact ih _ _ _ _ _ h ⟨he, hf, hl⟩
    case s6_1 =>
      obtain ⟨he, hf, hl⟩ := inv
      simp only [scanLoopF] at h
      split_ifs at h with h1 h2 h3 h4
      · cases hp : pushT tok (cur s) with
        | none => rw [hp] at h; cases h
        | some tok' =>
          rw [hp] at h
          obtain ⟨hpl, hpe, hpf⟩ := pushT_some hp
          refine ih _ _ _ _ _ h (Or.inr (Or.inr ⟨?_, ?_, ?_⟩))
          · rw [hpe, he]
          · rw [hpf, hf]
          · rw [hpl]
            simp
      · exact ih _ _ _ _ _ h (Or.inr (Or.inr ⟨he, hf, hl⟩))
      · exact ih _ _ _ _ _ h (Or.inr (Or.inr ⟨he, hf, hl⟩))
      · exact ih _ _ _ _ _ h (Or.inr (Or.inr ⟨he, hf, hl⟩))
      · cases hp : pushT tok (cur s) with
        | none => rw [hp] at h; cases h
        | some tok' =>
          rw [hp] at h
          obtain ⟨hpl, hpe, hpf⟩ := pushT_some hp
          refine ih _ _ _ _ _ h ⟨?_, ?_, ?_⟩
          · rw [hpe, he]
          · rw [hpf, hf]
          · rw [hpl]
            simp
    case s7 =>
      obtain ⟨he, hf, hl⟩ := inv
      simp only [scanLoopF] at h
      split_ifs at h with h1 h2
      · exact ih _ _ _ _ _ h ⟨he, hf, hl⟩
      · exact ih _ _ _ _ _ h ⟨he, hf, hl⟩
      · exact ih _ _ _ _ _ h ⟨he, hf, hl⟩
    case s8 =>
      obtain ⟨he, hf, hl⟩ := inv
      simp only [scanLoopF] at h
      split_ifs at h with h1 h2 h3 h4 h5 h6 h7
      · refine ih _ _ _ _ _ h (Or.inr (Or.inr ⟨he, hf, fun hl' =>
          absurd (hl hl') (by simp [special8, h1])⟩))
      · refine ih _ _ _ _ _ h (Or.inr (Or.inr ⟨he, hf, fun hl' =>
          absurd (hl hl') (by simp [special8, h2])⟩))
      · refine ih _ _ _ _ _ h (Or.inr (Or.inr ⟨he, hf, fun hl' =>
          absurd (hl hl') (by simp [special8, h3])⟩))
      · refine ih _ _ _ _ _ h (Or.inr (Or.inr ⟨he, hf, fun hl' =>
          absurd (hl hl') (by simp [special8, h4])⟩))
      · refine ih _ _ _ _ _ h (Or.inr (Or.inr ⟨he, hf, fun hl' =>
          absurd (hl hl') (by simp [special8, h5])⟩))
      · refine ih _ _ _ _ _ h (Or.inr (Or.inr ⟨he, hf, fun hl' =>
          absurd (hl hl') (by simp [special8, h6])⟩))
      · refine ih _ _ _ _ _ h (Or.inr (Or.inr ⟨he, hf, fun hl' =>
          absurd (hl hl') (by simp [special8, h7])⟩))
      · cases hp : pushT tok (cur s) with
        | none => rw [hp] at h; cases h
        | some tok' =>
          rw [hp] at h
          obtain ⟨hpl, hpe, hpf⟩ := pushT_some hp
          refine ih _ _ _ _ _ h ⟨?_, ?_, fun hl' => ?_⟩
          · rw [hpe, he]
          · rw [hpf, hf]
          · rw [hpl] at hl'
            simp at hl'

/-- The state weight is bounded. -/
theorem stw_le : ∀ (st : SState) (c : Int), stw st c ≤ 4 := by
  intro st c
  cases st <;> simp only [stw] <;> try omega
  split_ifs <;> omega

/-- Fuel sufficiency: from a live configuration, fuel exceeding the
termination measure `5 * length + weight` never runs out — the `while` loop
of `get_next_token` always reaches state 0 (or aborts in `push_to_lexeme`). -/
theorem scan_enough : ∀ (n : Nat) (st : SState) (tok : RawTok) (s : List Int),
    live st (cur s) → 5 * s.length + stw st (cur s) < n →
    scanLoopF n st tok s ≠ .oof := by
  intro n
  induction n with
  | zero =>
    intro st tok s _ hb
    omega
  | succ n ih =>
    intro st tok s hlive hb
    cases st
    case s0 => simp [scanLoopF]
    case s1 =>
      simp only [stw] at hb
      simp only [scanLoopF]
      split_ifs with h1 h2 h3 h4 h5 h6 h7
      · have hs : s ≠ [] := cur_ne_nil (by
          simp only [is_whitespace, Bool.or_eq_true, decide_eq_true_eq] at h1
          omega)
        refine ih _ _ _ trivial ?_
        have ha := adv_lt hs
        have hw := stw_le .s1 (cur (adv s))
        omega
      · refine ih _ _ _ ?_ ?_
        · simpa [is_symbol] using h2
        · simp only [stw]
          omega
      · refine ih _ _ _ h3 ?_
        simp only [stw]
        omega
      · refine ih _ _ _ h4 ?_
        simp only [stw]
        omega
      · refine ih _ _ _ h5 ?_
        simp only [stw]
        omega
      · refine ih _ _ _ h6 ?_
        simp only [stw]
        omega
      · refine ih _ _ _ trivial ?_
        have hc : cur s = 59 := by simpa [is_comment_initor] using h7
        have hw : stw .s7 (cur s) = 2 := by
          simp only [stw]
          rw [if_neg]
          simp [hc, is_eol, is_eof]
        rw [hw]
        omega
      · refine ih _ _ _ trivial ?_
        simp only [stw]
        omega
    case s2 =>
      simp only [stw] at hb
      simp only [scanLoopF]
      split_ifs with h1
      · cases hp : pushT tok (cur s) with
        | none => simp
        | some tok' =>
          have hs : s ≠ [] := cur_ne_nil (by rw [h1]; decide)
          refine ih _ _ _ trivial ?_
          have ha := adv_lt hs
          simp only [stw]
          omega
      · exact absurd hlive h1
    case s3 =>
      simp only [stw] at hb
      simp only [scanLoopF]
      split_ifs with h1
      · have hs : s ≠ [] := cur_ne_nil (by
          simp only [is_eol, decide_eq_true_eq] at h1
          omega)
        refine ih _ _ _ trivial ?_
        have ha := adv_lt hs
        simp only [stw]
        omega
      · exact absurd hlive h1
    case s4 =>
      simp only [stw] at hb
      simp only [scanLoopF]
      split_ifs with h1
      · refine ih _ _ _ trivial ?_
        have ha := adv_le s
        simp only [stw]
        omega
      · exact absurd hlive h1
    case s5 =>
      simp only [stw] at hb
      simp only [scanLoopF]
      split_ifs with h1
      · cases hp : pushT tok (cur s) with
        | none => simp
        | some tok' =>
          have hs : s ≠ [] := cur_ne_nil (by
            simp only [is_sqmark, decide_eq_true_eq] at h1
            omega)
          refine ih _ _ _ trivial ?_
          have ha := adv_lt hs
          simp only [stw]
          omega
      · exact absurd hlive h1
    case s5_1 =>
      simp only [stw] at hb
      simp only [scanLoopF]
      split_ifs with h1 h2 h3 h4
      · cases hp : pushT tok (cur s) with
        | none => simp
        | some tok' =>
          have hs : s ≠ [] := cur_ne_nil (by
            simp only [is_sqmark, decide_eq_true_eq] at h1
            omega)
          refine ih _ _ _ trivial ?_
          have ha := adv_lt hs
          simp only [stw]
          omega
      · refine ih _ _ _ trivial ?_
        simp only [stw]
        omega
      · refine ih _ _ _ trivial ?_
        simp only [stw]
        omega
      · refine ih _ _ _ trivial ?_
        simp only [stw]
        omega
      · cases hp : pushT tok (cur s) with
        | none => simp
        | some tok' =>
          have hs : s ≠ [] := cur_ne_nil (by
            simp only [is_eof, decide_eq_true_eq] at h3
            exact h3)
          refine ih _ _ _ trivial ?_
          have ha := adv_lt hs
          simp only [stw]
          omega
    case s6 =>
      simp only [stw] at hb
      simp only [scanLoopF]
      split_ifs with h1
      · cases hp : pushT tok (cur s) with
        | none => simp
        | some tok' =>
          have hs : s ≠ [] := cur_ne_nil (by
            simp only [is_dqmark, decide_eq_true_eq] at h1
            omega)
          refine ih _ _ _ trivial ?_
          have ha := adv_lt hs
          simp only [stw]
          omega
      · exact absurd hlive h1
    case s6_1 =>
      simp only [stw] at hb
      simp only [scanLoopF]
      split_ifs with h1 h2 h3 h4
      · cases hp : pushT tok (cur s) with
        | none => simp
        | some tok' =>
          have hs : s ≠ [] := cur_ne_nil (by
            simp only [is_dqmark, decide_eq_true_eq] at h1
            omega)
          refine ih _ _ _ trivial ?_
          have ha := adv_lt hs
          simp only [stw]
          omega
      · refine ih _ _ _ trivial ?_
        simp only [stw]
        omega
      · refine ih _ _ _ trivial ?_
        simp only [stw]
        omega
      · refine ih _ _ _ trivial ?_
        simp only [stw]
        omega
      · cases hp : pushT tok (cur s) with
        | none => simp
        | some tok' =>
          have hs : s ≠ [] := cur_ne_nil (by
            simp only [is_eof, decide_eq_true_eq] at h3
            exact h3)
          refine ih _ _ _ trivial ?_
          have ha := adv_lt hs
          simp only [stw]
          omega
    case s7 =>
      simp only [scanLoopF]
      split_ifs with h1 h2
      · have hw : stw .s7 (cur s) = 4 := by
          simp only [stw]
          rw [if_pos]
          simp [h1]
        rw [hw] at hb
        refine ih _ _ _ trivial ?_
        simp only [stw]
        omega
      · have hw : stw .s7 (cur s) = 4 := by
          simp only [stw]
          rw [if_pos]
          simp [h2]
        rw [hw] at hb
        refine ih _ _ _ trivial ?_
        simp only [stw]
        omega
      · have hw : stw .s7 (cur s) = 2 := by
          simp only [stw]
          rw [if_neg]
          simp only [Bool.not_eq_true] at h1 h2
          simp [h1, h2]
        rw [hw] at hb
        have hs : s ≠ [] := cur_ne_nil (by
          simp only [is_eof, decide_eq_true_eq] at h2
          exact h2)
        refine ih _ _ _ trivial ?_
        have ha := adv_lt hs
        have hw2 := stw_le .s7 (cur (adv s))
        omega
    case s8 =>
      simp only [stw] at hb
      simp only [scanLoopF]
      split_ifs with h1 h2 h3 h4 h5 h6 h7
      · refine ih _ _ _ trivial ?_
        simp only [stw]
        omega
      · refine ih _ _ _ trivial ?_
        simp only [stw]
        omega
      · refine ih _ _ _ trivial ?_
        simp only [stw]
        omega
      · refine ih _ _ _ trivial ?_
        simp only [stw]
        omega
      · refine ih _ _ _ trivial ?_
        simp only [stw]
        omega
      · refine ih _ _ _ trivial ?_
        simp only [stw]
        omega
      · refine ih _ _ _ trivial ?_
        simp only [stw]
        omega
      · cases hp : pushT tok (cur s) with
        | none => simp
        | some tok' =>
          have hs : s ≠ [] := cur_ne_nil (by
            simp only [is_eof, decide_eq_true_eq] at h4
            exact h4)
          refine ih _ _ _ trivial ?_
          have ha := adv_lt hs
          simp only [stw]
          omega

/-- `get_next_token` never runs out of the fuel the model allots it: the C
loop always terminates (possibly by aborting in `push_to_lexeme`). -/
theorem getNextToken_not_oof (s : List Int) : getNextToken s ≠ .oof := by
  rw [getNextToken, getNextTokenF]
  have h := scan_enough (scanFuel s) .s1 freshTok s trivial
    (by simp only [scanFuel, stw]; omega)
  cases hk : scanLoopF (scanFuel s) .s1 freshTok s with
  | ok p => simp
  | abort => simp
  | oof => exact absurd hk h

/-- A successful `get_next_token` comes from a successful scan followed by
classification. -/
theorem getNextToken_shape {s : List Int} {tok : Token} {rest : List Int}
    (h : getNextToken s = .ok (tok, rest)) :
    ∃ r, scanLoopF (scanFuel s) .s1 freshTok s = .ok (r, rest) ∧
      tok = classify r := by
  rw [getNextToken, getNextTokenF] at h
  cases hk : scanLoopF (scanFuel s) .s1 freshTok s with
  | ok p =>
    obtain ⟨r, rest'⟩ := p
    rw [hk] at h
    simp only [Res.ok.injEq, Prod.mk.injEq] at h
    refine ⟨r, ?_, h.1.symm⟩
    rw [h.2]
  | abort => rw [hk] at h; cases h
  | oof => rw [hk] at h; cases h

/-- Classification never touches the captured lexeme or the flags. -/
theorem classify_fields (r : RawTok) :
    (classify r).lexeme = r.lexeme ∧ (classify r).eol = r.eol ∧
      (classify r).eof = r.eof := by
  unfold classify
  refine ⟨?_, ?_, ?_⟩ <;>
    simp only [apply_ite Token.lexeme, apply_ite Token.eol, apply_ite Token.eof,
      ite_self]

/-- A classified token has type `t_eof` exactly when the raw token carried
the eof flag and not the eol flag. -/
theorem classify_eof_iff (r : RawTok) :
    ((classify r).type = .t_eof) ↔ (r.eol = false ∧ r.eof = true) := by
  unfold classify
  simp only [apply_ite Token.type]
  split_ifs with h1 h2 <;>
    simp_all [Bool.not_eq_true]

/-- The token-consumption loop never runs out of fuel exceeding the stream
length: every token before the final `t_eof` consumes at least one input
character. -/
theorem tokensF_not_oof : ∀ (n : Nat) (s : List Int), s.length < n →
    tokensF n s ≠ .oof := by
  intro n
  induction n with
  | zero =>
    intro s h
    omega
  | succ n ih =>
    intro s hlen
    simp only [tokensF]
    cases hk : getNextToken s with
    | abort => simp
    | oof => exact absurd hk (getNextToken_not_oof s)
    | ok p =>
      obtain ⟨tok, rest⟩ := p
      dsimp only
      split_ifs with ht
      · simp
      · obtain ⟨r, hscan, htok⟩ := getNextToken_shape hk
        have hcons := scan_consume _ _ _ _ _ _ hscan
        have hflags := scan_flags _ _ _ _ _ _ hscan ⟨rfl, rfl, rfl⟩
        have heof : r.eof = false := by
          rcases hflags with ⟨_, hf, _⟩ | ⟨he, hf, _⟩ | ⟨_, hf, _⟩
          · exact hf
          · exfalso
            exact ht (htok ▸ (classify_eof_iff r).mpr ⟨he, hf⟩)
          · exact hf
        have hlt : rest.length < s.length := hcons.2.2.1 rfl heof
        cases hk2 : tokensF n rest with
        | ok ts => simp
        | abort => simp
        | oof => exact absurd hk2 (ih rest (by omega))

/-- Fuel monotonicity for the token-consumption loop. -/
theorem tokensF_mono : ∀ (n : Nat) {m : Nat}, n ≤ m → ∀ s,
    tokensF n s ≠ .oof → tokensF m s = tokensF n s := by
  intro n
  induction n with
  | zero =>
    intro m _ s h
    exact absurd rfl h
  | succ n ih =>
    intro m hm s h
    cases m with
    | zero => omega
    | succ m =>
      have hm' : n ≤ m := Nat.le_of_succ_le_succ hm
      simp only [tokensF] at h ⊢
      cases hk : getNextToken s with
      | abort => simp [hk]
      | oof => simp [hk]
      | ok p =>
        obtain ⟨tok, rest⟩ := p
        simp only [hk] at h ⊢
        split_ifs at h ⊢ with ht
        · rfl
        · cases hk2 : tokensF n rest with
          | ok ts =>
            rw [ih hm' rest (by rw [hk2]; simp), hk2]
          | abort =>
            rw [ih hm' rest (by rw [hk2]; simp), hk2]
          | oof =>
            rw [hk2] at h
            exact absurd rfl h

/-- The default token-stream fuel always suffices. -/
theorem tokens_not_oof (s : List Int) : tokens s ≠ .oof :=
  tokensF_not_oof _ s (by omega)

/-- Token streams computed with any sufficient fuel agree with `tokens`. -/
theorem tokensF_eq_tokens {n : Nat} {s : List Int} (h : s.length < n) :
    tokensF n s = tokens s := by
  rw [tokens]
  rcases le_total n (s.length + 1) with hle | hle
  · exact (tokensF_mono n hle s (tokensF_not_oof n s h)).symm
  · exact tokensF_mono (s.length + 1) hle s (tokens_not_oof s)

/-- Any successfully produced token stream is a run of non-eof tokens closed
by exactly one final `t_eof` token. -/
theorem tokensF_ends_eof : ∀ (n : Nat) (s : List Int) (ts : List Token),
    tokensF n s = .ok ts →
    ∃ front last, ts = front ++ [last] ∧ last.type = .t_eof ∧
      ∀ t ∈ front, t.type ≠ .t_eof := by
  intro n
  induction n with
  | zero =>
    intro s ts h
    simp [tokensF] at h
  | succ n ih =>
    intro s ts h
    simp only [tokensF] at h
    cases hk : getNextToken s with
    | abort => rw [hk] at h; cases h
    | oof => rw [hk] at h; cases h
    | ok p =>
      obtain ⟨tok, rest⟩ := p
      rw [hk] at h
      dsimp only at h
      split_ifs at h with ht
      · simp only [Res.ok.injEq] at h
        subst h
        exact ⟨[], tok, rfl, ht, nofun⟩
      · cases hk2 : tokensF n rest with
        | ok ts' =>
          rw [hk2] at h
          simp only [Res.ok.injEq] at h
          subst h
          obtain ⟨front, last, hsplit, hlast, hfront⟩ := ih rest ts' hk2
          refine ⟨tok :: front, last, by rw [hsplit, List.cons_append], hlast, ?_⟩
          intro t hmem
          rw [List.mem_cons] at hmem
          rcases hmem with rfl | hmem
          · exact ht
          · exact hfront t hmem
        | abort => rw [hk2] at h; cases h
        | oof => rw [hk2] at h; cases h

/-- **C9** (confirmed).  Every token `get_next_token` returns satisfies
exactly one of: the EndOfLine flag is set, the EndOfInput flag is set, or the
raw lexeme is non-empty; flagged tokens carry an empty lexeme and every other
token carries at least one captured character. -/
theorem C9_flags_lexeme_invariant (s : List Int) (tok : Token)
    (rest : List Int) (h : getNextToken s = .ok (tok, rest)) :
    (tok.eol = true ∧ tok.eof = false ∧ tok.lexeme = []) ∨
    (tok.eol = false ∧ tok.eof = true ∧ tok.lexeme = []) ∨
    (tok.eol = false ∧ tok.eof = false ∧ tok.lexeme ≠ []) := by
  obtain ⟨r, hscan, htok⟩ := getNextToken_shape h
  have hflags := scan_flags _ _ _ _ _ _ hscan ⟨rfl, rfl, rfl⟩
  obtain ⟨hl, he, hf⟩ := classify_fields r
  subst htok
  rw [hl, he, hf]
  exact hflags

/-- Witness for C9 at the one-character input `":"`. -/
theorem C9_witness :
    (((⟨[58], false, false, .t_colon, none, none⟩ : Token).eol = true ∧
        (⟨[58], false, false, .t_colon, none, none⟩ : Token).eof = false ∧
        (⟨[58], false, false, .t_colon, none, none⟩ : Token).lexeme = []) ∨
      ((⟨[58], false, false, .t_colon, none, none⟩ : Token).eol = false ∧
        (⟨[58], false, false, .t_colon, none, none⟩ : Token).eof = true ∧
        (⟨[58], false, false, .t_colon, none, none⟩ : Token).lexeme = []) ∨
      ((⟨[58], false, false, .t_colon, none, none⟩ : Token).eol = false ∧
        (⟨[58], false, false, .t_colon, none, none⟩ : Token).eof = false ∧
        (⟨[58], false, false, .t_colon, none, none⟩ : Token).lexeme ≠ [])) :=
  C9_flags_lexeme_invariant [58] ⟨[58], false, false, .t_colon, none, none⟩ []
    (by decide)

/-- **C4** (amended).  On every finite byte stream the tokenizer loop
terminates: it never runs out of the allotted fuel, and whenever the scan
completes without the fatal lexeme-overflow abort, the token stream consists
of non-EndOfInput tokens closed by exactly one final EndOfInput token — the
token on which the tree builder stops. -/
theorem C4_amended_termination (s : List Int)
    (hbytes : ∀ c ∈ s, 0 ≤ c ∧ c ≤ 255) :
    tokens s ≠ .oof ∧
    ∀ ts, tokens s = .ok ts →
      ∃ front last, ts = front ++ [last] ∧ last.type = .t_eof ∧
        ∀ t ∈ front, t.type ≠ .t_eof :=
  ⟨tokens_not_oof s, fun ts h => tokensF_ends_eof _ _ ts h⟩

/-- Witness for the amended C4 at the input `"a"`. -/
theorem C4_witness :
    tokens [97] ≠ .oof ∧
    ∃ front last,
      ([⟨[97], false, false, .t_id, none, none⟩,
        ⟨[], false, true, .t_eof, none, none⟩] : List Token) =
          front ++ [last] ∧
        last.type = .t_eof ∧ ∀ t ∈ front, t.type ≠ .t_eof :=
  ⟨(C4_amended_termination [97] (by decide)).1,
    (C4_amended_termination [97] (by decide)).2
      [⟨[97], false, false, .t_id, none, none⟩,
        ⟨[], false, true, .t_eof, none, none⟩] (by decide)⟩

/-- **C4** (counterexample to the claim as stated).  A token whose lexeme
exceeds the 256-byte buffer makes `push_to_lexeme` abort the whole scan, so
the token stream of 257 consecutive `'a'` bytes never reaches an EndOfInput
token: the claim's "ends with exactly one EndOfInput token" fails on this
finite input. -/
theorem C4_counterexample : tokens (List.replicate 257 97) = .abort := by
  decide

/-- **C1** (code bug).  On empty input `get_ast` produces a tree whose root
has *two* end-of-input marker nodes below it, not one: `ast_eof` creates the
first for the initial EOF token, and the unconditional `ast_eofsibl` after
the loop appends a second.  There are zero line nodes, but the terminal
marker is duplicated, contradicting "exactly one terminal marker as the
root's only descendant". -/
theorem C1_empty_input_double_eof_marker :
    get_ast [] = .ok (.mk none none (some (.mk (some .eofD)
        (some (.mk (some .eofD) none none)) none))) ∧
    chainData (Node.mk none none (some (.mk (some .eofD)
        (some (.mk (some .eofD) none none)) none))).subtree =
      [some .eofD, some .eofD] := by
  refine ⟨rfl, ?_⟩
  show chainData (some (.mk (some .eofD) (some (.mk (some .eofD) none none)) none)) = _
  rw [chainData, chainData, chainData]

/-- One scan step on a `\n` register: state 1 dispatches to state 3, which
stamps the eol flag and consumes the newline. -/
theorem scan_eol_steps (k : Nat) (rest : List Int) :
    scanLoopF (k + 3) .s1 freshTok (10 :: rest) =
      .ok (⟨[], 0, true, false⟩, rest) := by
  have h1 : scanLoopF ((k + 2) + 1) .s1 freshTok (10 :: rest) =
      scanLoopF (k + 2) .s3 freshTok (10 :: rest) := by
    simp only [scanLoopF, cur]
    rw [if_neg (by decide), if_neg (by decide), if_pos (by decide)]
  have h2 : scanLoopF ((k + 1) + 1) .s3 freshTok (10 :: rest) =
      scanLoopF (k + 1) .s0 ⟨[], 0, true, false⟩ rest := by
    simp only [scanLoopF, cur, adv]
    rw [if_pos (by decide)]
    rfl
  show scanLoopF ((k + 2) + 1) .s1 freshTok (10 :: rest) = _
  rw [h1]
  show scanLoopF ((k + 1) + 1) .s3 freshTok (10 :: rest) = _
  rw [h2]
  simp only [scanLoopF]

/-- Entering the single-quote states: on a `'` register the scanner moves to
state 5, captures the opening quote, and proceeds to state 5.1. -/
theorem scan_squote_entry (k : Nat) (tail : List Int) :
    scanLoopF (k + 2) .s1 freshTok (39 :: tail) =
      scanLoopF k .s5_1 ⟨[39], 1, false, false⟩ tail := by
  have h1 : scanLoopF ((k + 1) + 1) .s1 freshTok (39 :: tail) =
      scanLoopF (k + 1) .s5 freshTok (39 :: tail) := by
    simp only [scanLoopF, cur]
    rw [if_neg (by decide), if_neg (by decide), if_neg (by decide),
      if_neg (by decide), if_pos (by decide)]
  show scanLoopF ((k + 1) + 1) .s1 freshTok (39 :: tail) = _
  rw [h1]
  simp only [scanLoopF, cur, adv]
  rw [if_pos (by decide)]
  rfl

/-- Running state 5.1 over string-body characters: each character that is not
a quote, end-of-line, end-of-input or comment initiator is captured. -/
theorem scan_squote_body : ∀ (body : List Int) (n : Nat) (lex : List Int)
    (top : Int) (s : List Int),
    (∀ c ∈ body, is_sqmark c = false ∧ is_eol c = false ∧ is_eof c = false ∧
      is_comment_initor c = false) →
    top = lex.length → lex.length + body.length ≤ 256 →
    scanLoopF (n + body.length) .s5_1 ⟨lex, top, false, false⟩ (body ++ s) =
      scanLoopF n .s5_1 ⟨lex ++ body, top + body.length, false, false⟩ s := by
  intro body
  induction body with
  | nil =>
    intro n lex top s _ _ _
    simp
  | cons c body' ih =>
    intro n lex top s hbody htop hcap
    have hc := hbody c (List.mem_cons_self c body')
    have hbody' : ∀ x ∈ body', is_sqmark x = false ∧ is_eol x = false ∧
        is_eof x = false ∧ is_comment_initor x = false :=
      fun x hx => hbody x (List.mem_cons_of_mem c hx)
    have hstep : scanLoopF ((n + body'.length) + 1) .s5_1 ⟨lex, top, false, false⟩
        (c :: (body' ++ s)) =
        scanLoopF (n + body'.length) .s5_1 ⟨lex ++ [c], top + 1, false, false⟩
          (body' ++ s) := by
      have hpush : pushT ⟨lex, top, false, false⟩ c =
          some ⟨lex ++ [c], top + 1, false, false⟩ := by
        rw [pushT, if_neg]
        show ¬ top = 256
        simp only [List.length_cons] at hcap
        omega
      simp only [scanLoopF, cur, adv]
      rw [if_neg (by simp [hc.1]), if_neg (by simp [hc.2.1]),
        if_neg (by simp [hc.2.2.1]), if_neg (by simp [hc.2.2.2]), hpush]
    have harith : n + (c :: body').length = (n + body'.length) + 1 := rfl
    have hlist : (c :: body') ++ s = c :: (body' ++ s) := rfl
    have htop' : top + 1 = ((lex ++ [c]).length : Int) := by simp [htop]
    have hcap' : (lex ++ [c]).length + body'.length ≤ 256 := by
      simp only [List.length_append, List.length_cons, List.length_nil] at hcap ⊢
      omega
    rw [harith, hlist, hstep,
      ih (n) (lex ++ [c]) (top + 1) s hbody' htop' hcap']
    have hl : (lex ++ [c]) ++ body' = lex ++ c :: body' := by simp
    have ht2 : top + 1 + (body'.length : Int) = top + ((c :: body').length : Int) := by
      push_cast [List.length_cons]
      ring
    rw [hl, ht2]

/-- Leaving state 5.1 on an unconsumed terminator: on end-of-line,
end-of-input or a comment initiator the token is finished without consuming
the terminating register. -/
theorem scan_squote_exit (k : Nat) (tok : RawTok) (s : List Int)
    (hterm : is_eol (cur s) = true ∨ is_eof (cur s) = true ∨
      is_comment_initor (cur s) = true) :
    scanLoopF (k + 2) .s5_1 tok s = .ok (tok, s) := by
  have hq : is_sqmark (cur s) = false := by
    rcases hterm with h | h | h
    · simp only [is_eol, decide_eq_true_eq] at h
      simp [is_sqmark, h]
    · simp only [is_eof, decide_eq_true_eq] at h
      simp [is_sqmark, h]
    · simp only [is_comment_initor, decide_eq_true_eq] at h
      simp [is_sqmark, h]
  have h1 : scanLoopF ((k + 1) + 1) .s5_1 tok s =
      scanLoopF (k + 1) .s0 tok s := by
    simp only [scanLoopF]
    rw [if_neg (by simp [hq])]
    by_cases hl : is_eol (cur s) = true
    · rw [if_pos hl]
    · rw [if_neg hl]
      by_cases hf : is_eof (cur s) = true
      · rw [if_pos hf]
      · rw [if_neg hf]
        rcases hterm with h | h | h
        · exact absurd h hl
        · exact absurd h hf
        · rw [if_pos h]
  show scanLoopF ((k + 1) + 1) .s5_1 tok s = _
  rw [h1]
  simp only [scanLoopF]

/-- A recognizer FSM whose start state rejects the first character rejects the
whole string. -/
theorem runFSM_head_reject (step : Nat → Int → Nat) (c : Int) (cs : List Int)
    (h2 : step 2 c = 0) (h0 : ∀ x, step 0 x = 0) :
    runFSM step (c :: cs) = false := by
  rw [runFSM, List.cons_append, List.foldl_cons, h2, foldl_fix step 0 h0]
  rfl

/-- From state 3 of `is_sqstr`, a remainder containing no closing quote is
never accepted. -/
theorem sqstr_from3_no_close : ∀ l : List Int, (∀ c ∈ l, is_sqmark c = false) →
    ((l ++ [0]).foldl sqstrStep 3 == 1) = false := by
  intro l
  induction l with
  | nil =>
    intro _
    rfl
  | cons c cs ih =>
    intro h
    have hc : is_sqmark c = false := h c (List.mem_cons_self c cs)
    rw [List.cons_append, List.foldl_cons]
    by_cases hv : (is_visible_ascii_character c && !(c == 39)) = true
    · have hs : sqstrStep 3 c = 3 := by
        simp only [sqstrStep]
        rw [if_pos]
        simpa using hv
      rw [hs]
      exact ih (fun x hx => h x (List.mem_cons_of_mem c hx))
    · have hs : sqstrStep 3 c = 0 := by
        simp only [sqstrStep]
        rw [if_neg, if_neg]
        · rw [hc]
          exact Bool.false_ne_true
        · simpa using hv
      rw [hs, foldl_fix sqstrStep 0 (fun x => rfl)]
      rfl

/-- An opening quote followed by quote-free text is not a single-quoted
string. -/
theorem is_sqstr_unterminated (body : List Int)
    (h : ∀ c ∈ body, is_sqmark c = false) :
    is_sqstr (39 :: body) = false := by
  rw [is_sqstr, runFSM, List.cons_append, List.foldl_cons]
  exact sqstr_from3_no_close body h

/-- A lexeme starting with a quote is not the colon terminal. -/
theorem is_terminal_colon_squote (body : List Int) :
    is_terminal [58] (39 :: body) = false := by
  simp [is_terminal, cstr]

/-- A quote-initiated lexeme that never closes its quote falls through every
classifier branch to `t_unknown`. -/
theorem classify_squote_unknown (body : List Int) (top : Int)
    (hq : ∀ c ∈ body, is_sqmark c = false) :
    classify ⟨39 :: body, top, false, false⟩ =
      ⟨39 :: body, false, false, .t_unknown, none, none⟩ := by
  have hbin : is_bin (39 :: body) = false :=
    runFSM_head_reject binStep 39 body rfl (fun x => rfl)
  have hoct : is_oct (39 :: body) = false :=
    runFSM_head_reject octStep 39 body rfl (fun x => rfl)
  have hdec : is_dec (39 :: body) = false :=
    runFSM_head_reject decStep 39 body rfl (fun x => rfl)
  have hhex : is_hex (39 :: body) = false :=
    runFSM_head_reject hexStep 39 body rfl (fun x => rfl)
  have hid : is_id (39 :: body) = false :=
    runFSM_head_reject idStep 39 body rfl (fun x => rfl)
  have hdq : is_dqstr (39 :: body) = false :=
    runFSM_head_reject dqstrStep 39 body rfl (fun x => rfl)
  have hsq : is_sqstr (39 :: body) = false := is_sqstr_unterminated body hq
  simp [classify, is_terminal_colon_squote, hbin, hoct, hdec, hhex, hid, hdq, hsq]

/-- **C7** (confirmed).  When an opening single quote is never matched by a
closing quote before the next end-of-line, end-of-input or comment-initiator
register — the body characters are none of those four and fit the lexeme
buffer (a longer body hits the fatal buffer overflow of C2/C4 first) — the
tokenizer stops the string capture at that terminator *without consuming
it*, and returns a token whose lexeme is the partial string (opening quote
included, no closing quote) classified `t_unknown` instead of aborting.
When the terminator is a newline, the very next token is the EndOfLine
token. -/
theorem C7_unterminated_string_unrecognized (body s : List Int)
    (hlen : body.length ≤ 255)
    (hbody : ∀ c ∈ body, is_sqmark c = false ∧ is_eol c = false ∧
      is_eof c = false ∧ is_comment_initor c = false)
    (hterm : is_eol (cur s) = true ∨ is_eof (cur s) = true ∨
      is_comment_initor (cur s) = true) :
    getNextToken (39 :: (body ++ s)) =
      .ok (⟨39 :: body, false, false, .t_unknown, none, none⟩, s) ∧
    ∀ rest : List Int, s = 10 :: rest →
      getNextToken s = .ok (⟨[], true, false, .t_eol, none, none⟩, rest) := by
  constructor
  · have e2 := scan_squote_body body 2 [39] 1 s hbody (by simp)
      (by simp only [List.length_cons, List.length_nil]; omega)
    have hchain : scanLoopF (body.length + 4) .s1 freshTok
        (39 :: (body ++ s)) =
        .ok (⟨39 :: body, 1 + body.length, false, false⟩, s) := by
      show scanLoopF ((body.length + 2) + 2) .s1 freshTok
        (39 :: (body ++ s)) = _
      rw [scan_squote_entry (body.length + 2) (body ++ s)]
      have h2 : body.length + 2 = 2 + body.length := by omega
      rw [h2, e2]
      have h3 : ([39] : List Int) ++ body = 39 :: body := rfl
      rw [h3]
      exact scan_squote_exit 0 _ s hterm
    rw [getNextToken, getNextTokenF]
    have hne : scanLoopF (body.length + 4) .s1 freshTok
        (39 :: (body ++ s)) ≠ .oof := by
      rw [hchain]
      exact fun h => Res.noConfusion h
    have hle : body.length + 4 ≤ scanFuel (39 :: (body ++ s)) := by
      simp only [scanFuel, List.length_cons, List.length_append]
      omega
    rw [scan_mono (body.length + 4) hle .s1 freshTok _ hne, hchain]
    dsimp only
    rw [classify_squote_unknown body _ (fun c hc => (hbody c hc).1)]
  · intro rest hrest
    subst hrest
    rw [getNextToken, getNextTokenF]
    have hfuel : scanFuel (10 :: rest) = (5 * rest.length + 18) + 3 := by
      simp only [scanFuel, List.length_cons]
      omega
    rw [hfuel, scan_eol_steps (5 * rest.length + 18) rest]
    rfl

/-- Witness for C7: the specification's own scenario, `'unterminated` followed
by a newline. -/
theorem C7_witness :
    getNextToken (39 :: (([117, 110, 116, 101, 114, 109, 105, 110, 97, 116,
        101, 100] : List Int) ++ [10])) =
      .ok (⟨39 :: [117, 110, 116, 101, 114, 109, 105, 110, 97, 116, 101, 100],
        false, false, .t_unknown, none, none⟩, [10]) ∧
    ∀ rest : List Int, ([10] : List Int) = 10 :: rest →
      getNextToken [10] =
        .ok (⟨[], true, false, .t_eol, none, none⟩, rest) :=
  C7_unterminated_string_unrecognized
    [117, 110, 116, 101, 114, 109, 105, 110, 97, 116, 101, 100] [10]
    (by decide) (by decide) (Or.inl (by decide))

/-- Every token other than the final `t_eof` token consumes at least one
input character. -/
theorem getNextToken_consume {s : List Int} {tok : Token} {rest : List Int}
    (h : getNextToken s = .ok (tok, rest)) (ht : tok.type ≠ .t_eof) :
    rest.length < s.length := by
  obtain ⟨r, hscan, htok⟩ := getNextToken_shape h
  have hcons := scan_consume _ _ _ _ _ _ hscan
  have hflags := scan_flags _ _ _ _ _ _ hscan ⟨rfl, rfl, rfl⟩
  have heof : r.eof = false := by
    rcases hflags with ⟨_, hf, _⟩ | ⟨he, hf, _⟩ | ⟨_, hf, _⟩
    · exact hf
    · exact absurd (htok ▸ (classify_eof_iff r).mpr ⟨he, hf⟩) ht
    · exact hf
  exact hcons.2.2.1 rfl heof

/-- Two inputs on which `get_next_token` returns the same first token and
remainder have the same token stream. -/
theorem tokens_eq_of_first {s₁ s₂ : List Int}
    (h : getNextToken s₁ = getNextToken s₂) : tokens s₁ = tokens s₂ := by
  rw [tokens, tokens]
  simp only [tokensF]
  rw [h]
  cases hk : getNextToken s₂ with
  | abort => rfl
  | oof => rfl
  | ok p =>
    obtain ⟨tok, rest⟩ := p
    dsimp only
    split_ifs with ht
    · rfl
    · have h1 : rest.length < s₁.length := getNextToken_consume (h.trans hk) ht
      have h2 : rest.length < s₂.length := getNextToken_consume hk ht
      rw [tokensF_eq_tokens h1, tokensF_eq_tokens h2]

/-- State 1 skips a leading whitespace run one character per step. -/
theorem scan_ws_skip : ∀ (ws : List Int) (n : Nat) (tok : RawTok) (s : List Int),
    (∀ c ∈ ws, is_whitespace c = true) →
    scanLoopF (n + ws.length) .s1 tok (ws ++ s) = scanLoopF n .s1 tok s := by
  intro ws
  induction ws with
  | nil =>
    intro n tok s _
    simp
  | cons c ws' ih =>
    intro n tok s h
    have harith : n + (c :: ws').length = (n + ws'.length) + 1 := rfl
    have hlist : (c :: ws') ++ s = c :: (ws' ++ s) := rfl
    have hstep : scanLoopF ((n + ws'.length) + 1) .s1 tok (c :: (ws' ++ s)) =
        scanLoopF (n + ws'.length) .s1 tok (ws' ++ s) := by
      simp only [scanLoopF, cur, adv]
      rw [if_pos (h c (List.mem_cons_self c ws'))]
    rw [harith, hlist, hstep]
    exact ih n tok s (fun x hx => h x (List.mem_cons_of_mem c hx))

/-- A leading whitespace run does not change the token `get_next_token`
returns nor the remaining input. -/
theorem getNextToken_ws (ws s : List Int)
    (h : ∀ c ∈ ws, is_whitespace c = true) :
    getNextToken (ws ++ s) = getNextToken s := by
  rw [getNextToken, getNextTokenF, getNextToken, getNextTokenF]
  have hsplit : scanFuel (ws ++ s) =
      (4 * ws.length + 5 * s.length + 16) + ws.length := by
    simp only [scanFuel, List.length_append]
    omega
  rw [hsplit, scan_ws_skip ws (4 * ws.length + 5 * s.length + 16) freshTok s h]
  have hne : scanLoopF (scanFuel s) .s1 freshTok s ≠ .oof :=
    scan_enough (scanFuel s) .s1 freshTok s trivial
      (by simp only [scanFuel, stw]; omega)
  have hge : scanFuel s ≤ 4 * ws.length + 5 * s.length + 16 := by
    simp only [scanFuel]
    omega
  rw [scan_mono (scanFuel s) hge .s1 freshTok s hne]

/-- State 7 skips comment-body characters one per step. -/
theorem scan_comment_body : ∀ (body : List Int) (n : Nat) (tok : RawTok)
    (s : List Int),
    (∀ c ∈ body, is_eol c = false ∧ is_eof c = false) →
    scanLoopF (n + body.length) .s7 tok (body ++ s) = scanLoopF n .s7 tok s := by
  intro body
  induction body with
  | nil =>
    intro n tok s _
    simp
  | cons c body' ih =>
    intro n tok s h
    have hc := h c (List.mem_cons_self c body')
    have harith : n + (c :: body').length = (n + body'.length) + 1 := rfl
    have hlist : (c :: body') ++ s = c :: (body' ++ s) := rfl
    have hstep : scanLoopF ((n + body'.length) + 1) .s7 tok (c :: (body' ++ s)) =
        scanLoopF (n + body'.length) .s7 tok (body' ++ s) := by
      simp only [scanLoopF, cur, adv]
      rw [if_neg (by simp [hc.1]), if_neg (by simp [hc.2])]
    rw [harith, hlist, hstep]
    exact ih n tok s (fun x hx => h x (List.mem_cons_of_mem c hx))

/-- A `;`-comment run (initiator plus body) before an end-of-line or
end-of-input register is skipped entirely: the scanner returns to state 1
with the terminator still unconsumed. -/
theorem scan_comment_skip (body : List Int) (n : Nat) (tok : RawTok)
    (s : List Int)
    (hbody : ∀ c ∈ body, is_eol c = false ∧ is_eof c = false)
    (hterm : is_eol (cur s) = true ∨ is_eof (cur s) = true) :
    scanLoopF (n + (body.length + 3)) .s1 tok (59 :: (body ++ s)) =
      scanLoopF n .s1 tok s := by
  have h1 : scanLoopF ((n + body.length + 2) + 1) .s1 tok (59 :: (body ++ s)) =
      scanLoopF (n + body.length + 2) .s7 tok (59 :: (body ++ s)) := by
    simp only [scanLoopF, cur]
    rw [if_neg (by decide), if_neg (by decide), if_neg (by decide),
      if_neg (by decide), if_neg (by decide), if_neg (by decide),
      if_pos (by decide)]
  have h2 : scanLoopF ((n + body.length + 1) + 1) .s7 tok (59 :: (body ++ s)) =
      scanLoopF (n + body.length + 1) .s7 tok (body ++ s) := by
    simp only [scanLoopF, cur, adv]
    rw [if_neg (by decide), if_neg (by decide)]
  have h4 : scanLoopF (n + 1) .s7 tok s = scanLoopF n .s1 tok s := by
    simp only [scanLoopF]
    by_cases hl : is_eol (cur s) = true
    · rw [if_pos hl]
    · rcases hterm with he | he
      · exact absurd he hl
      · rw [if_neg hl, if_pos he]
  show scanLoopF ((n + body.length + 2) + 1) .s1 tok (59 :: (body ++ s)) = _
  rw [h1]
  show scanLoopF ((n + body.length + 1) + 1) .s7 tok (59 :: (body ++ s)) = _
  rw [h2]
  have ha : n + body.length + 1 = (n + 1) + body.length := by omega
  rw [ha, scan_comment_body body (n + 1) tok s hbody, h4]

/-- A leading comment run terminated by an unconsumed end-of-line or
end-of-input does not change the token `get_next_token` returns. -/
theorem getNextToken_comment (body s : List Int)
    (hbody : ∀ c ∈ body, is_eol c = false ∧ is_eof c = false)
    (hterm : is_eol (cur s) = true ∨ is_eof (cur s) = true) :
    getNextToken (59 :: (body ++ s)) = getNextToken s := by
  rw [getNextToken, getNextTokenF, getNextToken, getNextTokenF]
  have hsplit : scanFuel (59 :: (body ++ s)) =
      (4 * body.length + 5 * s.length + 18) + (body.length + 3) := by
    simp only [scanFuel, List.length_cons, List.length_append]
    omega
  rw [hsplit,
    scan_comment_skip body (4 * body.length + 5 * s.length + 18) freshTok s
      hbody hterm]
  have hne : scanLoopF (scanFuel s) .s1 freshTok s ≠ .oof :=
    scan_enough (scanFuel s) .s1 freshTok s trivial
      (by simp only [scanFuel, stw]; omega)
  have hge : scanFuel s ≤ 4 * body.length + 5 * s.length + 18 := by
    simp only [scanFuel]
    omega
  rw [scan_mono (scanFuel s) hge .s1 freshTok s hne]

/-- Counterexample to C8 as stated: whitespace insertion is *not* invisible
at arbitrary positions — inside a lexeme it splits one token into two.
Input `a b` produces a different token sequence from input `ab`. -/
theorem C8_counterexample : tokens [97, 32, 98] ≠ tokens [97, 98] := by
  decide

/-- **C8** (corrected).  Whitespace runs and comments are invisible to the
token stream at token boundaries, not anywhere: (i) a whitespace run
prepended to the input leaves the token stream unchanged; (ii) a
`;`-comment whose body contains no end-of-line or end-of-input character,
inserted before an end-of-line or end-of-input register, is skipped without
producing any token — the terminator itself is then tokenized normally.
(The unrestricted claim fails: see the counterexample, where whitespace
inserted *inside* a lexeme splits the token.) -/
theorem C8_amended_invisibility :
    (∀ ws s : List Int, (∀ c ∈ ws, is_whitespace c = true) →
      tokens (ws ++ s) = tokens s) ∧
    (∀ body s : List Int, (∀ c ∈ body, is_eol c = false ∧ is_eof c = false) →
      (is_eol (cur s) = true ∨ is_eof (cur s) = true) →
      tokens (59 :: (body ++ s)) = tokens s) := by
  constructor
  · intro ws s h
    exact tokens_eq_of_first (getNextToken_ws ws s h)
  · intro body s hbody hterm
    exact tokens_eq_of_first (getNextToken_comment body s hbody hterm)

/-- Witness for C8: a leading space before `a` and the comment `;c` before a
newline are both invisible. -/
theorem C8_witness :
    tokens (([32] : List Int) ++ [97]) = tokens [97] ∧
    tokens (59 :: (([99] : List Int) ++ [10])) = tokens [10] :=
  ⟨C8_amended_invisibility.1 [32] [97] (by decide),
   C8_amended_invisibility.2 [99] [10] (by decide) (Or.inl (by decide))⟩

/-- On NUL-free lexemes `eval_bin` is the reference accumulation over the
digit part. -/
theorem eval_bin_eq_spec {s : List Int} (h0 : (0 : Int) ∉ s) :
    eval_bin s = msd_eval 2 s.dropLast := by
  rw [eval_bin, cstr_eq_self h0]
  exact eval_eq_msd (fun hx => h0 (List.dropLast_subset s hx)) 2

/-- On NUL-free lexemes `eval_oct` is the reference accumulation over the
digit part. -/
theorem eval_oct_eq_spec {s : List Int} (h0 : (0 : Int) ∉ s) :
    eval_oct s = msd_eval 8 s.dropLast := by
  rw [eval_oct, cstr_eq_self h0]
  exact eval_eq_msd (fun hx => h0 (List.dropLast_subset s hx)) 8

/-- On NUL-free lexemes `eval_hex` is the reference accumulation over the
digit part. -/
theorem eval_hex_eq_spec {s : List Int} (h0 : (0 : Int) ∉ s) :
    eval_hex s = msd_eval 16 s.dropLast := by
  rw [eval_hex, cstr_eq_self h0]
  exact eval_eq_msd (fun hx => h0 (List.dropLast_subset s hx)) 16

/-- On NUL-free lexemes `eval_dec` is the reference accumulation over the
suffix-normalized digit part. -/
theorem eval_dec_eq_spec {s : List Int} (h0 : (0 : Int) ∉ s) :
    eval_dec s = msd_eval 10 (stripDec s) := by
  rw [eval_dec, cstr_eq_self h0, stripDec]
  by_cases h : tolowercase (s.getLastD 0) = 100
  · rw [if_pos h, if_pos (by simp only [is_decsym, decide_eq_true_eq]; exact h)]
    exact eval_eq_msd (fun hx => h0 (List.dropLast_subset s hx)) 10
  · rw [if_neg h, if_neg (by simp only [is_decsym, decide_eq_true_eq]; exact h)]
    exact eval_eq_msd h0 10

/-- On NUL-free lexemes `eval_sqstr` strips exactly the two delimiters. -/
theorem eval_sqstr_eq_spec {s : List Int} (h0 : (0 : Int) ∉ s) :
    eval_sqstr s = (s.drop 1).dropLast := by
  rw [eval_sqstr, substr, cstr_eq_self h0, List.dropLast_eq_take,
    List.length_drop]
  congr 1

/-- **C5** (confirmed).  On every NUL-free completed lexeme the classifier of
state 0 agrees with the specification's first-match-wins decision list: eol
flag, eof flag, `:` as Colon, binary, octal, decimal, hexadecimal,
identifier, single-quoted string, double-quoted string, otherwise
Unrecognized with no value set — with the integer branches carrying the
reference most-significant-digit-first value of the suffix-normalized digit
part and the string branches carrying the delimiter-stripped body. -/
theorem C5_classifier_first_match_order (r : RawTok)
    (h0 : (0 : Int) ∉ r.lexeme) :
    classify r = specClassify r := by
  unfold classify specClassify
  rw [is_terminal_colon h0, is_bin_eq_spec h0, is_oct_eq_spec h0,
    is_dec_eq_spec h0, is_hex_eq_spec h0, is_id_eq_spec h0,
    is_sqstr_eq_spec h0, is_dqstr_eq_spec h0,
    eval_bin_eq_spec h0, eval_oct_eq_spec h0, eval_dec_eq_spec h0,
    eval_hex_eq_spec h0, eval_sqstr_eq_spec h0, eval_dqstr,
    eval_sqstr_eq_spec h0]
  simp only [decide_eq_true_eq]

/-- Witness for C5: the hexadecimal lexeme `deadh`. -/
theorem C5_witness :
    (0 : Int) ∉ ([100, 101, 97, 100, 104] : List Int) ∧
    classify ⟨[100, 101, 97, 100, 104], 5, false, false⟩ =
      specClassify ⟨[100, 101, 97, 100, 104], 5, false, false⟩ :=
  ⟨by decide, C5_classifier_first_match_order
    ⟨[100, 101, 97, 100, 104], 5, false, false⟩ (by decide)⟩

end Osa
